import Mathlib

/-!
Verification of the inventory-to-container core of the repository
(`ansible_collections/arista/avd/plugins/modules/inventory_to_container.py`).

The nested inventory mapping (a parsed YAML document) is embedded as the
`Value` type below: Python dicts become ordered association sequences
(`VEntries`), strings, numbers and `None` are kept as separate constructors
because the source distinguishes them through `isIterable` and the `in`
operator.  Fallible Python code (exceptions) is embedded with `Except PyErr`.

The source builds its tree with the external `treelib` library, whose code is
not part of the repository.  The tree type and its operations are therefore
modelled from the spec's description of the Container Tree: node identity is
the container name, a later `create_node` with an existing name overwrites the
earlier node without diagnostic (the spec's fail-open duplicate behaviour),
sibling order is insertion order, and the pre-order walk `expand_tree`
enumerates a node before its children.
-/

namespace AvdInv

mutual

/-- Embedding of the already-parsed inventory document: Python dicts (keyed,
insertion ordered), strings, numbers and None.  Only these shapes are
relevant to the source functions. -/
inductive Value : Type where
  | vmap : VEntries → Value
  | vstr : String → Value
  | vnum : Int → Value
  | vnone : Value

/-- Entries of a Python dict, in insertion order. -/
inductive VEntries : Type where
  | nil : VEntries
  | cons : String → Value → VEntries → VEntries

end

/-- Keys of a dict, in order. -/
def VEntries.keys : VEntries → List String
  | .nil => []
  | .cons k _ rest => k :: rest.keys

/-- Python `key in d` for a dict `d`. -/
def VEntries.hasKey : VEntries → String → Bool
  | .nil, _ => false
  | .cons k _ rest, key => k == key || rest.hasKey key

/-- Python `d[key]` for a dict `d`: first (only) binding of the key. -/
def VEntries.dlookup : VEntries → String → Option Value
  | .nil, _ => none
  | .cons k v rest, key => if k == key then some v else rest.dlookup key

/-- Python substring containment `pat in s` for strings. -/
def strContains (s pat : String) : Bool := (s.splitOn pat).length > 1

/-- Source `isIterable`: `iter(x)` succeeds for dicts and strings, raises
`TypeError` for numbers and `None`. -/
def isIterable : Value → Bool
  | .vmap _ => true
  | .vstr _ => true
  | .vnum _ => false
  | .vnone => false

/-- Python `'key' in v` for the iterable values: key membership on a dict,
substring containment on a string.  The source only evaluates it behind an
`isIterable` guard or on values it then subscripts. -/
def pyContains (v : Value) (key : String) : Bool :=
  match v with
  | .vmap es => es.hasKey key
  | .vstr s => strContains s key
  | _ => false

/-- Exception classes that the embedded code can raise. -/
inductive PyErr : Type where
  | attributeError : PyErr
  | typeError : PyErr
  | keyError : PyErr
  | nodeIDAbsent : PyErr
deriving Repr, DecidableEq

/-- Source `CVP_ROOT_CONTAINER`: the reserved name of the synthetic root. -/
def CVP_ROOT_CONTAINER : String := "Tenant"

/-- Modelled from the spec: a node of the Container Tree (treelib is not in
the repository sources).  Node identity and tag coincide (the source always
calls `create_node(k, k, ...)`); the synthetic root has no parent. -/
structure TNode : Type where
  tag : String
  parent : Option String
deriving Repr, DecidableEq

/-- Modelled from the spec: the Container Tree as its node list in insertion
order.  The parent pointers encode the tree structure. -/
abbrev Tree : Type := List TNode

/-- Tags of all nodes, in insertion order. -/
def tags (t : Tree) : List String := t.map (·.tag)

/-- Modelled from the spec: `create_node` keyed by name.  A later node sharing
a name with an earlier node overwrites it without diagnostic (the spec's
fail-open duplicate behaviour); a fresh name is appended, so sibling order is
insertion order. -/
def create_node (t : Tree) (name : String) (parent : Option String) : Tree :=
  if t.any (·.tag == name) then
    t.map (fun n => if n.tag == name then ⟨name, parent⟩ else n)
  else t ++ [⟨name, parent⟩]

/-- Node lookup by name: the first node carrying the tag. -/
def findNode : Tree → String → Option TNode
  | [], _ => none
  | nd :: rest, name => if nd.tag == name then some nd else findNode rest name

/-- Membership test used for `subtree`'s existence check. -/
def treeContains (t : Tree) (name : String) : Bool :=
  (findNode t name).isSome

/-- Children of a node, in insertion order (treelib `is_branch`). -/
def childrenOf (t : Tree) (p : String) : List String :=
  tags (t.filter (fun n => n.parent == some p))

/-- Source `isLeaf`: a node with no children. -/
def isLeaf (t : Tree) (nid : String) : Bool :=
  (childrenOf t nid).isEmpty

/-- Parent tag of a node (treelib `parent(...).tag` data). -/
def parentOf (t : Tree) (c : String) : Option String :=
  (findNode t c).bind (·.parent)

/-- Modelled from the spec: pre-order walk (`expand_tree`), node before its
children, siblings in insertion order.  The fuel argument bounds the
recursion depth; `t.length` steps suffice for every tree whose parent
pointers are acyclic, which is every tree the builder produces from an
inventory obeying the data-model invariant. -/
def expand_tree (t : Tree) : Nat → String → List String
  | 0, _ => []
  | fuel + 1, nid => nid :: (childrenOf t nid).flatMap (expand_tree t fuel)

/-- Initial tree of the builder: only the synthetic root `Tenant`. -/
def initTree : Tree := [⟨CVP_ROOT_CONTAINER, none⟩]

mutual

/-- Recursive invocations of source `serialize` (the tree argument is never
`None` there): non-iterable input returns `None` leaving the tree untouched,
a string is iterable but raises `AttributeError` at `.items()`, and a dict is
walked by `serializeItems`. -/
def serializeRec : Value → String → Tree → Except PyErr Tree
  | .vmap es, parent, t => serializeItems es parent t
  | .vstr _, _, _ => .error .attributeError
  | .vnum _, _, t => .ok t
  | .vnone, _, t => .ok t

/-- Body of the `for k1, v1 in dict_inventory.items()` loop of `serialize`.
First statement: an iterable value without a `children` key gets a node.
Second statement: an iterable value with a `children` key gets a node and is
recursed into; otherwise, if the key itself is the literal `children`, each
sub-entry gets a node and is recursed into (`serializeSub`). -/
def serializeItems : VEntries → String → Tree → Except PyErr Tree
  | .nil, _, t => .ok t
  | .cons k1 v1 rest, parent, t =>
    let t1 := if isIterable v1 && !(pyContains v1 "children") then
                create_node t k1 (some parent)
              else t
    let step2 : Except PyErr Tree :=
      if isIterable v1 && pyContains v1 "children" then
        let t2 := create_node t1 k1 (some parent)
        match v1 with
        | .vmap l1 => serializeIntoChildren l1 k1 t2
        | _ => .error .typeError
      else if k1 == "children" && isIterable v1 then
        match v1 with
        | .vmap l1 => serializeSub l1 parent t1
        | _ => .error .attributeError
      else .ok t1
    match step2 with
    | .error e => .error e
    | .ok t3 => serializeItems rest parent t3

/-- Lookup of `v1['children']` followed by the recursive `serialize` call:
scans the dict for its `children` binding.  The caller guarantees the key is
present; an absent key would be Python's `KeyError`. -/
def serializeIntoChildren : VEntries → String → Tree → Except PyErr Tree
  | .nil, _, _ => .error .keyError
  | .cons "children" cv _, k1, t => serializeRec cv k1 t
  | .cons _ _ rest, k1, t => serializeIntoChildren rest k1 t

/-- Inner `for k2, v2 in v1.items()` loop of `serialize` (the branch taken
when the key is the literal `children`). -/
def serializeSub : VEntries → String → Tree → Except PyErr Tree
  | .nil, _, t => .ok t
  | .cons k2 v2 rest, parent, t =>
    let t1 := create_node t k2 (some parent)
    match serializeRec v2 k2 t1 with
    | .error e => .error e
    | .ok t2 => serializeSub rest parent t2

end

/-- Source `serialize` as called by `get_containers` (no tree yet): a
non-iterable inventory falls through and returns `None`; otherwise the root
node `Tenant` is created and the inventory is walked. -/
def serialize (v : Value) : Except PyErr (Option Tree) :=
  match v with
  | .vmap es =>
    match serializeItems es CVP_ROOT_CONTAINER initTree with
    | .error e => .error e
    | .ok t => .ok (some t)
  | .vstr _ => .error .attributeError
  | .vnum _ => .ok none
  | .vnone => .ok none

mutual

/-- Source `get_devices`: `.items()` raises `AttributeError` for every
non-dict argument; a dict is walked by `getDevItems`.  The `devices`
argument is the collector list the results are appended to. -/
def get_devices : Value → String → List String → Except PyErr (List String)
  | .vmap es, search, devices => getDevItems es search devices
  | _, _, _ => .error .attributeError

/-- Body of the `for k1, v1 in dict_inventory.items()` loop of `get_devices`.
First statement: a key equal to the searched container with a `hosts`
binding appends every host name.  Second statement: an iterable value with a
`children` key is recursed into; otherwise, if the key is the literal
`children`, the source's recursive call misspells its keyword argument
(`devcices`), so Python raises `TypeError` as soon as one sub-entry exists. -/
def getDevItems : VEntries → String → List String → Except PyErr (List String)
  | .nil, _, devices => .ok devices
  | .cons k1 v1 rest, search, devices =>
    let step1 : Except PyErr (List String) :=
      if k1 == search then
        match v1 with
        | .vmap l1 =>
          if l1.hasKey "hosts" then
            match l1.dlookup "hosts" with
            | some (.vmap hs) => .ok (devices ++ hs.keys)
            | some _ => .error .attributeError
            | none => .error .keyError
          else .ok devices
        | .vstr s => if strContains s "hosts" then .error .typeError else .ok devices
        | _ => .error .typeError
      else .ok devices
    match step1 with
    | .error e => .error e
    | .ok devices1 =>
      let step2 : Except PyErr (List String) :=
        if isIterable v1 && pyContains v1 "children" then
          match v1 with
          | .vmap l1 => getDevsIntoChildren l1 search devices1
          | _ => .error .typeError
        else if k1 == "children" && isIterable v1 then
          match v1 with
          | .vmap .nil => .ok devices1
          | .vmap (.cons _ _ _) => .error .typeError
          | _ => .error .attributeError
        else .ok devices1
      match step2 with
      | .error e => .error e
      | .ok devices2 => getDevItems rest search devices2

/-- Lookup of `v1['children']` followed by the recursive `get_devices`
call. -/
def getDevsIntoChildren : VEntries → String → List String → Except PyErr (List String)
  | .nil, _, _ => .error .keyError
  | .cons "children" cv _, search, devices => get_devices cv search devices
  | .cons _ _ rest, search, devices => getDevsIntoChildren rest search devices

end

/-- Output record of `get_containers` for one container: the `data` dict with
its optional `parent_container` and `devices` keys. -/
structure Record : Type where
  parent_container : Option String
  devices : Option (List String)
deriving Repr, DecidableEq

/-- Record assembly for one traversed container (body of the
`for container in container_list` loop, `container != CVP_ROOT_CONTAINER`
case).  The parent is looked up first (treelib raises on an absent node); the
designated subtree root is forced under `Tenant`; a node whose parent is the
reserved root gets an empty record; otherwise the parent is recorded and a
leaf additionally gets its device list from `get_devices` over the full
inventory with a fresh collector. -/
def recordFor (inv : Value) (t : Tree) (root c : String) : Except PyErr Record :=
  match findNode t c with
  | none => .error .nodeIDAbsent
  | some nd =>
    if c == root then .ok ⟨some CVP_ROOT_CONTAINER, none⟩
    else
      match nd.parent with
      | none => .error .attributeError
      | some p =>
        if p == CVP_ROOT_CONTAINER then .ok ⟨none, none⟩
        else if isLeaf t c then
          match get_devices inv c [] with
          | .error e => .error e
          | .ok devs => .ok ⟨some p, some devs⟩
        else .ok ⟨some p, none⟩

/-- Python dict assignment `d[k] = r`: overwrite in place or append. -/
def dictInsert : List (String × Record) → String → Record → List (String × Record)
  | [], k, r => [(k, r)]
  | (k', r') :: rest, k, r =>
    if k' == k then (k, r) :: rest else (k', r') :: dictInsert rest k r

/-- The `for container in container_list` loop of `get_containers`: the
reserved root is skipped, every other traversed container gets its record
inserted into the output dict. -/
def buildRecords (inv : Value) (t : Tree) (root : String) :
    List String → List (String × Record) → Except PyErr (List (String × Record))
  | [], acc => .ok acc
  | c :: cs, acc =>
    if c == CVP_ROOT_CONTAINER then buildRecords inv t root cs acc
    else
      match recordFor inv t root c with
      | .error e => .error e
      | .ok r => buildRecords inv t root cs (dictInsert acc c r)

/-- Source `get_containers`: build the tree, take the subtree at the
designated root (`NodeIDAbsentError`, a lookup failure, if the name is not a
node; `AttributeError` if `serialize` returned no tree at all), walk it in
pre-order and assemble the output mapping. -/
def get_containers (inv : Value) (parent_container : String) :
    Except PyErr (List (String × Record)) :=
  match serialize inv with
  | .error e => .error e
  | .ok none => .error .attributeError
  | .ok (some t) =>
    if treeContains t parent_container then
      buildRecords inv t parent_container (expand_tree t t.length parent_container) []
    else .error .nodeIDAbsent

/-- The concrete inventory of the spec's first scenario. -/
def scenarioInventory : Value :=
  .vmap (.cons "Tenant"
    (.vmap (.cons "children"
      (.vmap (.cons "DC1"
        (.vmap (.cons "children"
          (.vmap (.cons "DC1_SPINES"
            (.vmap (.cons "hosts"
              (.vmap (.cons "spine1" (.vmap .nil) .nil))
              .nil))
            .nil))
          .nil))
        .nil))
      .nil))
    .nil)

/-- Modelled Python semantics of the source's mutable default argument: the
default `devices=list()` is evaluated once at function definition time, every
call that omits the argument appends into that one list and returns it.
`cell` is the state of the shared default list before the call; the result
pairs the call's return value with the shared list afterwards.  A call that
raises propagates the previous cell (the theorems only use exception-free
calls). -/
def get_devices_omitted (inv : Value) (g : String) (cell : List String) :
    Except PyErr (List String) × List String :=
  match get_devices inv g cell with
  | .ok r => (.ok r, r)
  | .error e => (.error e, cell)

/-- Climb the parent chain from `c` for at most `fuel` steps, checking whether
`root` is reached: membership of `c` in the subtree rooted at `root`. -/
def isDescAux (t : Tree) : Nat → String → String → Bool
  | 0, _, _ => false
  | fuel + 1, root, c =>
    c == root ||
      (match parentOf t c with
       | some p => isDescAux t fuel root p
       | none => false)

/-- Subtree membership: `t.length` climbing steps suffice whenever parents
were created before their children. -/
def isDesc (t : Tree) (root c : String) : Bool := isDescAux t t.length root c

/-- The node names of the subtree rooted at `root`, as a sublist of the
insertion order. -/
def subtreeTags (t : Tree) (root : String) : List String :=
  (tags t).filter (fun c => isDesc t root c)

/-- Folding a sequence of `(name, parent)` creation events over a tree:
the builder's effect is exactly such a fold. -/
def applyEvents (t : Tree) (evs : List (String × String)) : Tree :=
  evs.foldl (fun t e => create_node t e.1 (some e.2)) t

mutual

/-- Structured inventory group definition following the spec's data model: an
optional `children` mapping of sub-groups and an optional `hosts` mapping
(host name to host data, only the keys matter). -/
inductive GroupDef : Type where
  | mk : Kids → Option VEntries → GroupDef

/-- Presence or absence of the `children` key of a group definition (an empty
`children` mapping is distinct from no `children` key). -/
inductive Kids : Type where
  | noKids : Kids
  | kids : Groups → Kids

/-- A mapping from group name to group definition, in insertion order: the
top-level inventory shape and the shape of every `children` mapping. -/
inductive Groups : Type where
  | gnil : Groups
  | gcons : String → GroupDef → Groups → Groups

end

mutual

/-- The Python dict a structured group definition denotes. -/
def GroupDef.toValue : GroupDef → Value
  | .mk .noKids none => .vmap .nil
  | .mk .noKids (some hs) => .vmap (.cons "hosts" (.vmap hs) .nil)
  | .mk (.kids gs) none => .vmap (.cons "children" (.vmap gs.toPairs) .nil)
  | .mk (.kids gs) (some hs) =>
      .vmap (.cons "children" (.vmap gs.toPairs) (.cons "hosts" (.vmap hs) .nil))

/-- The Python dict a structured groups mapping denotes. -/
def Groups.toPairs : Groups → VEntries
  | .gnil => .nil
  | .gcons n d rest => .cons n d.toValue rest.toPairs

end

/-- The inventory document denoted by a structured top level. -/
def Groups.toValue (gs : Groups) : Value := .vmap gs.toPairs

mutual

/-- Group names declared strictly below a definition. -/
def GroupDef.subnames : GroupDef → List String
  | .mk .noKids _ => []
  | .mk (.kids gs) _ => gs.names

/-- All group names of a groups mapping, in declaration order. -/
def Groups.names : Groups → List String
  | .gnil => []
  | .gcons n d rest => n :: (d.subnames ++ rest.names)

end

mutual

/-- The `(name, parent)` node-creation events the Tree Builder performs below
one group definition whose own name is the second argument. -/
def GroupDef.events : GroupDef → String → List (String × String)
  | .mk .noKids _, _ => []
  | .mk (.kids gs) _, n => gs.events n

/-- The `(name, parent)` node-creation events the Tree Builder performs for a
groups mapping under the given parent, in creation order. -/
def Groups.events : Groups → String → List (String × String)
  | .gnil, _ => []
  | .gcons n d rest, parent => (n, parent) :: (d.events n ++ rest.events parent)

end

/-- Host names declared directly under a group definition's own `hosts`
mapping, in declaration order. -/
def GroupDef.ownHosts : GroupDef → List String
  | .mk _ (some hs) => hs.keys
  | .mk _ none => []

mutual

/-- Reference search below one definition: hosts the Device Resolver collects
from the sub-groups of the definition. -/
def GroupDef.hostsBelow : GroupDef → String → List String
  | .mk .noKids _, _ => []
  | .mk (.kids gs) _, g => gs.hostsOf g

/-- Reference search over a groups mapping: hosts collected for the searched
name, in collection order (mirrors the resolver's scan order). -/
def Groups.hostsOf : Groups → String → List String
  | .gnil, _ => []
  | .gcons n d rest, g =>
      (if n == g then d.ownHosts else []) ++ (d.hostsBelow g ++ rest.hostsOf g)

end

mutual

/-- Find the definition of a group below one definition. -/
def GroupDef.findBelow : GroupDef → String → Option GroupDef
  | .mk .noKids _, _ => none
  | .mk (.kids gs) _, g => gs.findDef g

/-- Find the definition of a group anywhere in a groups mapping (first match
in scan order). -/
def Groups.findDef : Groups → String → Option GroupDef
  | .gnil, _ => none
  | .gcons n d rest, g =>
      if n == g then some d
      else
        match d.findBelow g with
        | some r => some r
        | none => rest.findDef g

end

/-- Specification-side description of the Device Resolver's contract: the host
names declared directly under the named group's own `hosts` mapping, and the
empty list if the group is absent. -/
def Groups.directHosts (gs : Groups) (g : String) : List String :=
  match gs.findDef g with
  | some d => d.ownHosts
  | none => []

/-- The two key names the data model reserves, plus the reserved root name:
none of them may be a group name. -/
def reservedName (n : String) : Bool :=
  n == "children" || n == "hosts" || n == CVP_ROOT_CONTAINER

/-- All names of a list avoid the reserved names. -/
def goodNames (ns : List String) : Bool := ns.all (fun n => !(reservedName n))

/-- Position of the first node carrying the tag (`t.length` if absent). -/
def rankAux : Tree → String → Nat
  | [], _ => 0
  | nd :: rest, c => if nd.tag == c then 0 else rankAux rest c + 1

/-- A healthy builder tree: tags are pairwise distinct and every node's
parent was created strictly before the node.  Every tree the builder
produces from an inventory with unique, non-reserved group names satisfies
this. -/
def goodTree (t : Tree) : Prop :=
  (tags t).Nodup ∧ ∀ nd ∈ t, ∀ p, nd.parent = some p → rankAux t p < rankAux t nd.tag

/-- Validity of a creation-event sequence relative to the already-created
names: each event's parent must already exist when the event runs. -/
def eventParentsOK : List (String × String) → List String → Prop
  | [], _ => True
  | (n, p) :: evs, seen => p ∈ seen ∧ eventParentsOK evs (seen ++ [n])

/-- The Container Tree that the builder produces from a structured inventory
with unique non-reserved group names: the synthetic root followed by one node
per creation event. -/
def Groups.tree (gs : Groups) : Tree :=
  initTree ++ (gs.events CVP_ROOT_CONTAINER).map (fun e => ⟨e.1, some e.2⟩)

/-- Strict precedence inside a list: `x` occurs at some position strictly
before an occurrence of `y`. -/
def Before (x y : String) (l : List String) : Prop :=
  ∃ l₁ l₂ l₃, l = l₁ ++ x :: (l₂ ++ y :: l₃)

/-- Lookup in the output mapping of `get_containers`. -/
def lookupRec : List (String × Record) → String → Option Record
  | [], _ => none
  | (k, r) :: rest, c => if k == c then some r else lookupRec rest c

/-- Specification-side description of the record `get_containers` emits for a
traversed container `c` other than the reserved root. -/
def specRecord (gs : Groups) (root c : String) : Record :=
  if c == root then ⟨some CVP_ROOT_CONTAINER, none⟩
  else
    match parentOf gs.tree c with
    | some p =>
      if p == CVP_ROOT_CONTAINER then ⟨none, none⟩
      else if isLeaf gs.tree c then ⟨some p, some (gs.directHosts c)⟩
      else ⟨some p, none⟩
    | none => ⟨none, none⟩

/-- The traversal `get_containers` performs: pre-order from the designated
root with the default fuel. -/
def expandF (t : Tree) (nid : String) : List String := expand_tree t t.length nid

/-- Inventory with a duplicated group name (`A` at top level and below `B`):
input for the duplicate-overwrite scenario. -/
def dupExample : Groups :=
  .gcons "A" (.mk .noKids none)
    (.gcons "B" (.mk (.kids (.gcons "A" (.mk .noKids none) .gnil)) none) .gnil)

/-- One-group inventory used as a sanity input by several scenarios. -/
def oneGroupExample : Groups := .gcons "A" (.mk .noKids none) .gnil

/-- Leaf group with two hosts: input for the Device Resolver contract. -/
def hostsExample : Groups :=
  .gcons "g"
    (.mk .noKids (some (.cons "dev1" (.vmap .nil) (.cons "dev2" (.vmap .nil) .nil))))
    .gnil

/-- Two leaf groups with one host each: input for the shared-default-collector
scenario. -/
def inv9 : Value :=
  .vmap (.cons "g1" (.vmap (.cons "hosts" (.vmap (.cons "d1" (.vmap .nil) .nil)) .nil))
    (.cons "g2" (.vmap (.cons "hosts" (.vmap (.cons "d2" (.vmap .nil) .nil)) .nil)) .nil))

/-- Three-level inventory (`all` → `DC` → `L`) used to count records versus
subtree nodes. -/
def c6value : Value :=
  .vmap (.cons "all"
    (.vmap (.cons "children"
      (.vmap (.cons "DC"
        (.vmap (.cons "children"
          (.vmap (.cons "L"
            (.vmap (.cons "hosts" (.vmap (.cons "h1" (.vmap .nil) .nil)) .nil))
            .nil))
          .nil))
        .nil))
      .nil))
    .nil)

/-- The tree the builder produces from `c6value`. -/
def c6tree : Tree :=
  [⟨"Tenant", none⟩, ⟨"all", some "Tenant"⟩, ⟨"DC", some "all"⟩, ⟨"L", some "DC"⟩]

/-- Two-level grammar inventory (`DC` → `L` with one host) used by the
traversal-order and record-count scenarios. -/
def c5Example : Groups :=
  .gcons "DC"
    (.mk (.kids (.gcons "L"
      (.mk .noKids (some (.cons "h1" (.vmap .nil) .nil))) .gnil)) none)
    .gnil

/-- Mapping level holding the literal key `children` whose value is a mapping
without a `children` key: the shape that drives the Device Resolver into its
misspelled-keyword recursive call. -/
def c4input : Value :=
  .vmap (.cons "children"
    (.vmap (.cons "g1"
      (.vmap (.cons "hosts" (.vmap (.cons "d1" (.vmap .nil) .nil)) .nil))
      .nil))
    .nil)

section TreeLemmas

theorem tags_nil : tags [] = [] := rfl

theorem tags_cons (nd : TNode) (t : Tree) : tags (nd :: t) = nd.tag :: tags t := rfl

theorem tags_append (a b : Tree) : tags (a ++ b) = tags a ++ tags b := by
  simp [tags]

theorem findNode_mem {t : Tree} {c : String} {nd : TNode}
    (h : findNode t c = some nd) : nd ∈ t ∧ nd.tag = c := by
  induction t with
  | nil => simp [findNode] at h
  | cons hd tl ih =>
    by_cases hh : hd.tag = c
    · simp [findNode, beq_iff_eq, hh] at h
      subst h
      exact ⟨List.mem_cons_self _ _, hh⟩
    · simp [findNode, beq_iff_eq, hh] at h
      rcases ih h with ⟨h1, h2⟩
      exact ⟨List.mem_cons_of_mem _ h1, h2⟩

theorem findNode_isSome_iff_mem (t : Tree) (c : String) :
    (findNode t c).isSome = true ↔ c ∈ tags t := by
  induction t with
  | nil => simp [findNode, tags]
  | cons hd tl ih =>
    by_cases hh : hd.tag = c
    · simp [findNode, beq_iff_eq, hh, tags_cons]
    · simp [findNode, beq_iff_eq, hh, tags_cons, ih]
      intro he
      exact absurd he.symm hh

theorem treeContains_iff_mem (t : Tree) (c : String) :
    treeContains t c = true ↔ c ∈ tags t := by
  rw [treeContains, findNode_isSome_iff_mem]

theorem anyTag_eq_treeContains (t : Tree) (c : String) :
    (t.any (·.tag == c)) = treeContains t c := by
  induction t with
  | nil => simp [treeContains, findNode]
  | cons hd tl ih =>
    by_cases hh : hd.tag = c
    · simp [treeContains, findNode, beq_iff_eq, hh]
    · have hh' : (hd.tag == c) = false := beq_eq_false_iff_ne.mpr hh
      simp [treeContains, findNode, hh'] at ih ⊢
      exact ih

theorem findNode_of_mem_nodup {t : Tree} {nd : TNode}
    (hn : (tags t).Nodup) (hm : nd ∈ t) : findNode t nd.tag = some nd := by
  induction t with
  | nil => simp at hm
  | cons hd tl ih =>
    rcases List.mem_cons.mp hm with h | h
    · subst h
      simp [findNode]
    · have hhd : hd.tag ∉ tags tl := (List.nodup_cons.mp (by simpa [tags_cons] using hn)).1
      have hne : hd.tag ≠ nd.tag := by
        intro he
        rw [he] at hhd
        exact hhd (List.mem_map_of_mem _ h)
      have htl : (tags tl).Nodup := (List.nodup_cons.mp (by simpa [tags_cons] using hn)).2
      simp [findNode, beq_iff_eq, hne]
      exact ih htl h

theorem rank_lt_of_mem {t : Tree} {c : String} (h : c ∈ tags t) :
    rankAux t c < t.length := by
  induction t with
  | nil => simp [tags] at h
  | cons hd tl ih =>
    by_cases hh : hd.tag = c
    · simp [rankAux, beq_iff_eq, hh]
    · rw [tags_cons] at h
      rcases List.mem_cons.mp h with h1 | h1
    

      · exact absurd h1.symm hh
      · have := ih h1
        simp [rankAux, beq_iff_eq, hh]
        omega

theorem rank_eq_length_of_not_mem {t : Tree} {c : String} (h : c ∉ tags t) :
    rankAux t c = t.length := by
  induction t with
  | nil => simp [rankAux]
  | cons hd tl ih =>
    have h1 : hd.tag ≠ c := fun he => h (by simp [tags_cons, he])
    have h2 : c ∉ tags tl := fun hc => h (by simp [tags_cons, hc])
    simp [rankAux, beq_iff_eq, h1, ih h2]

theorem mem_of_rank_lt {t : Tree} {c : String} (h : rankAux t c < t.length) :
    c ∈ tags t := by
  by_contra hc
  rw [rank_eq_length_of_not_mem hc] at h
  omega

theorem rank_append_of_mem {t : Tree} {c : String} (u : Tree) (h : c ∈ tags t) :
    rankAux (t ++ u) c = rankAux t c := by
  induction t with
  | nil => simp [tags] at h
  | cons hd tl ih =>
    by_cases hh : hd.tag = c
    · simp [rankAux, beq_iff_eq, hh]
    · rw [tags_cons] at h
      rcases List.mem_cons.mp h with h1 | h1
      · exact absurd h1.symm hh
      · simp [rankAux, beq_iff_eq, hh, ih h1]

theorem rank_append_of_not_mem {t : Tree} {c : String} (u : Tree) (h : c ∉ tags t) :
    rankAux (t ++ u) c = t.length + rankAux u c := by
  induction t with
  | nil => simp [rankAux]
  | cons hd tl ih =>
    have h1 : hd.tag ≠ c := fun he => h (by simp [tags_cons, he])
    have h2 : c ∉ tags tl := fun hc => h (by simp [tags_cons, hc])
    simp [rankAux, beq_iff_eq, h1, ih h2]
    omega

theorem create_node_fresh {t : Tree} {n : String} (h : n ∉ tags t)
    (p : Option String) : create_node t n p = t ++ [⟨n, p⟩] := by
  have : (t.any (·.tag == n)) = false := by
    rw [anyTag_eq_treeContains]
    rw [← Bool.not_eq_true]
    rw [treeContains_iff_mem]
    exact h
  simp [create_node, this]

theorem goodTree_step {t : Tree} {n p : String}
    (gt : goodTree t) (hp : p ∈ tags t) (hn : n ∉ tags t) :
    goodTree (t ++ [⟨n, some p⟩]) := by
  obtain ⟨gnodup, gpar⟩ := gt
  constructor
  · rw [tags_append]
    rw [List.nodup_append]
    refine ⟨gnodup, by simp [tags], ?_⟩
    intro a ha hb
    simp [tags] at hb
    subst hb
    exact hn ha
  · intro nd hnd q hq
    rcases List.mem_append.mp hnd with hmem | hmem
    · have h1 := gpar nd hmem q hq
      have htag : nd.tag ∈ tags t := List.mem_map_of_mem _ hmem
      have hq' : q ∈ tags t := by
        apply mem_of_rank_lt
        have := rank_lt_of_mem htag
        omega
      rw [rank_append_of_mem _ hq', rank_append_of_mem _ htag]
      exact h1
    · simp at hmem
      subst hmem
      simp at hq
      subst hq
      rw [rank_append_of_mem _ hp, rank_append_of_not_mem _ hn]
      have := rank_lt_of_mem hp
      simp [rankAux]
      omega

theorem goodTree_applyEvents :
    ∀ (evs : List (String × String)) (t : Tree),
      eventParentsOK evs (tags t) →
      (tags t ++ evs.map Prod.fst).Nodup →
      goodTree t →
      applyEvents t evs = t ++ evs.map (fun e => ⟨e.1, some e.2⟩) ∧
        goodTree (t ++ evs.map (fun e => ⟨e.1, some e.2⟩)) := by
  intro evs
  induction evs with
  | nil =>
    intro t _ _ gt
    simpa [applyEvents] using gt
  | cons e rest ih =>
    intro t hok hnodup gt
    obtain ⟨n, p⟩ := e
    obtain ⟨hp, hok'⟩ := hok
    have hn : n ∉ tags t := by
      rw [List.nodup_append] at hnodup
      intro hc
      exact hnodup.2.2 hc (by simp)
    have hstep : create_node t n (some p) = t ++ [⟨n, some p⟩] :=
      create_node_fresh hn _
    have hgood : goodTree (t ++ [⟨n, some p⟩]) := goodTree_step gt hp hn
    have htags : tags (t ++ [⟨n, some p⟩]) = tags t ++ [n] := by
      simp [tags_append, tags]
    have hok2 : eventParentsOK rest (tags (t ++ [⟨n, some p⟩])) := by
      rw [htags]
      exact hok'
    have hnodup2 : (tags (t ++ [⟨n, some p⟩]) ++ rest.map Prod.fst).Nodup := by
      rw [htags]
      simpa using hnodup
    have hmain := ih (t ++ [⟨n, some p⟩]) hok2 hnodup2 hgood
    constructor
    · show applyEvents (create_node t n (some p)) rest = _
      rw [hstep, hmain.1]
      simp
    · have := hmain.2
      simpa using this

theorem eventParentsOK_mono :
    ∀ (evs : List (String × String)) (s s' : List String),
      eventParentsOK evs s → s ⊆ s' → eventParentsOK evs s' := by
  intro evs
  induction evs with
  | nil => intro s s' _ _; trivial
  | cons e rest ih =>
    intro s s' h hsub
    obtain ⟨n, p⟩ := e
    obtain ⟨hp, h'⟩ := h
    refine ⟨hsub hp, ih _ _ h' ?_⟩
    intro x hx
    rcases List.mem_append.mp hx with h1 | h1
    · exact List.mem_append.mpr (Or.inl (hsub h1))
    · exact List.mem_append.mpr (Or.inr h1)

theorem eventParentsOK_append :
    ∀ (a b : List (String × String)) (s : List String),
      eventParentsOK a s → eventParentsOK b (s ++ a.map Prod.fst) →
      eventParentsOK (a ++ b) s := by
  intro a
  induction a with
  | nil => intro b s _ hb; simpa using hb
  | cons e rest ih =>
    intro b s ha hb
    obtain ⟨n, p⟩ := e
    obtain ⟨hp, ha'⟩ := ha
    refine ⟨hp, ih b (s ++ [n]) ha' ?_⟩
    simpa using hb

end TreeLemmas

section GrammarLemmas

theorem applyEvents_nil (t : Tree) : applyEvents t [] = t := rfl

theorem applyEvents_cons (t : Tree) (e : String × String) (evs : List (String × String)) :
    applyEvents t (e :: evs) = applyEvents (create_node t e.1 (some e.2)) evs := rfl

theorem applyEvents_append (t : Tree) (a b : List (String × String)) :
    applyEvents t (a ++ b) = applyEvents (applyEvents t a) b := by
  simp [applyEvents, List.foldl_append]

theorem goodNames_head {n : String} {l : List String} (h : goodNames (n :: l) = true) :
    n ≠ "children" ∧ n ≠ "hosts" ∧ n ≠ CVP_ROOT_CONTAINER ∧ goodNames l = true := by
  simp only [goodNames, List.all_cons, Bool.and_eq_true, Bool.not_eq_true'] at h
  obtain ⟨h1, h2⟩ := h
  simp only [reservedName, Bool.or_eq_false_iff, beq_eq_false_iff_ne] at h1
  exact ⟨h1.1.1, h1.1.2, h1.2, by simpa [goodNames] using h2⟩

theorem goodNames_append {a b : List String} (h : goodNames (a ++ b) = true) :
    goodNames a = true ∧ goodNames b = true := by
  simp only [goodNames, List.all_append, Bool.and_eq_true] at h
  exact ⟨h.1, h.2⟩

theorem events_names :
    ∀ (gs : Groups) (parent : String), (gs.events parent).map Prod.fst = gs.names
  | .gnil, _ => rfl
  | .gcons n (.mk .noKids hs) rest, parent => by
    simp [Groups.events, GroupDef.events, Groups.names, GroupDef.subnames,
      events_names rest parent]
  | .gcons n (.mk (.kids gs') hs) rest, parent => by
    simp [Groups.events, GroupDef.events, Groups.names, GroupDef.subnames,
      events_names gs' n, events_names rest parent]

theorem events_parentsOK :
    ∀ (gs : Groups) (parent : String) (seen : List String),
      parent ∈ seen → eventParentsOK (gs.events parent) seen
  | .gnil, _, _, _ => trivial
  | .gcons n (.mk .noKids hs) rest, parent, seen, hp => by
    refine ⟨hp, ?_⟩
    simp only [GroupDef.events, List.nil_append]
    exact events_parentsOK rest parent (seen ++ [n]) (by simp [hp])
  | .gcons n (.mk (.kids gs') hs) rest, parent, seen, hp => by
    refine ⟨hp, ?_⟩
    simp only [GroupDef.events]
    apply eventParentsOK_append
    · exact events_parentsOK gs' n (seen ++ [n]) (by simp)
    · apply eventParentsOK_mono _ ((seen ++ [n]) ++ (gs'.events n).map Prod.fst)
      · exact events_parentsOK rest parent _ (by simp [hp])
      · exact fun x hx => hx

theorem serializeItems_eq_events :
    ∀ (gs : Groups) (parent : String) (t : Tree),
      goodNames gs.names = true →
      serializeItems gs.toPairs parent t = .ok (applyEvents t (gs.events parent))
  | .gnil, parent, t, _ => by
    simp [Groups.toPairs, Groups.events, serializeItems, applyEvents]
  | .gcons n (.mk .noKids none) rest, parent, t, h => by
    rw [Groups.names] at h
    obtain ⟨hc, _, _, hrest⟩ := goodNames_head h
    rw [GroupDef.subnames] at hrest
    simp only [List.nil_append] at hrest
    have hIH := serializeItems_eq_events rest parent (create_node t n (some parent)) hrest
    simp [Groups.toPairs, GroupDef.toValue, Groups.events, GroupDef.events,
      serializeItems, isIterable, pyContains, VEntries.hasKey,
      beq_eq_false_iff_ne.mpr hc, applyEvents_cons, hIH]
  | .gcons n (.mk .noKids (some hs)) rest, parent, t, h => by
    rw [Groups.names] at h
    obtain ⟨hc, _, _, hrest⟩ := goodNames_head h
    rw [GroupDef.subnames] at hrest
    simp only [List.nil_append] at hrest
    have hIH := serializeItems_eq_events rest parent (create_node t n (some parent)) hrest
    simp [Groups.toPairs, GroupDef.toValue, Groups.events, GroupDef.events,
      serializeItems, isIterable, pyContains, VEntries.hasKey,
      beq_eq_false_iff_ne.mpr hc, applyEvents_cons, hIH]
  | .gcons n (.mk (.kids gs') none) rest, parent, t, h => by
    rw [Groups.names] at h
    obtain ⟨hc, _, _, hrest⟩ := goodNames_head h
    rw [GroupDef.subnames] at hrest
    obtain ⟨hsub, hrest'⟩ := goodNames_append hrest
    have hIH1 := serializeItems_eq_events gs' n (create_node t n (some parent)) hsub
    simp [Groups.toPairs, GroupDef.toValue, Groups.events, GroupDef.events,
      serializeItems, isIterable, pyContains, VEntries.hasKey,
      serializeIntoChildren, serializeRec, applyEvents_cons, applyEvents_append, hIH1]
    exact serializeItems_eq_events rest parent _ hrest'
  | .gcons n (.mk (.kids gs') (some hs)) rest, parent, t, h => by
    rw [Groups.names] at h
    obtain ⟨hc, _, _, hrest⟩ := goodNames_head h
    rw [GroupDef.subnames] at hrest
    obtain ⟨hsub, hrest'⟩ := goodNames_append hrest
    have hIH1 := serializeItems_eq_events gs' n (create_node t n (some parent)) hsub
    simp [Groups.toPairs, GroupDef.toValue, Groups.events, GroupDef.events,
      serializeItems, isIterable, pyContains, VEntries.hasKey,
      serializeIntoChildren, serializeRec, applyEvents_cons, applyEvents_append, hIH1]
    exact serializeItems_eq_events rest parent _ hrest'

theorem goodTree_initTree : goodTree initTree := by
  constructor
  · simp [initTree, tags]
  · intro nd hnd p hp
    simp [initTree] at hnd
    subst hnd
    simp at hp

theorem tenant_not_mem_of_goodNames {ns : List String}
    (h : goodNames ns = true) : CVP_ROOT_CONTAINER ∉ ns := by
  intro hc
  simp only [goodNames, List.all_eq_true] at h
  have := h _ hc
  simp [reservedName] at this

theorem tree_eq_applyEvents (gs : Groups)
    (hg : goodNames gs.names = true) (hd : gs.names.Nodup) :
    applyEvents initTree (gs.events CVP_ROOT_CONTAINER) = gs.tree ∧ goodTree gs.tree := by
  have hok : eventParentsOK (gs.events CVP_ROOT_CONTAINER) (tags initTree) := by
    apply events_parentsOK
    simp [initTree, tags]
  have hnodup : (tags initTree ++ (gs.events CVP_ROOT_CONTAINER).map Prod.fst).Nodup := by
    rw [events_names]
    simp only [initTree, tags, List.map_cons, List.map_nil, List.cons_append, List.nil_append]
    rw [List.nodup_cons]
    exact ⟨tenant_not_mem_of_goodNames hg, hd⟩
  have := goodTree_applyEvents (gs.events CVP_ROOT_CONTAINER) initTree hok hnodup goodTree_initTree
  exact ⟨this.1, this.2⟩

/-- The Tree Builder on a structured inventory with unique, non-reserved group
names succeeds and produces exactly `gs.tree`. -/
theorem serialize_toValue (gs : Groups)
    (hg : goodNames gs.names = true) (hd : gs.names.Nodup) :
    serialize gs.toValue = .ok (some gs.tree) := by
  have h1 := serializeItems_eq_events gs CVP_ROOT_CONTAINER initTree hg
  have h2 := (tree_eq_applyEvents gs hg hd).1
  simp [Groups.toValue, serialize, h1, h2]

theorem tags_tree (gs : Groups) :
    tags gs.tree = CVP_ROOT_CONTAINER :: gs.names := by
  rw [Groups.tree, tags_append, ← events_names gs CVP_ROOT_CONTAINER]
  simp [initTree, tags, List.map_map]

theorem tree_parent_isSome {gs : Groups} {c : String} {nd : TNode}
    (hc : c ≠ CVP_ROOT_CONTAINER) (h : findNode gs.tree c = some nd) :
    ∃ p, nd.parent = some p := by
  obtain ⟨hm, htag⟩ := findNode_mem h
  rw [Groups.tree] at hm
  rcases List.mem_append.mp hm with h1 | h1
  · simp [initTree] at h1
    subst h1
    exact absurd htag.symm hc
  · rcases List.mem_map.mp h1 with ⟨e, _, he⟩
    exact ⟨e.2, by rw [← he]⟩

end GrammarLemmas

section OverwriteLemmas

theorem findNode_map_replace {t : Tree} {n : String} (p : Option String)
    (h : n ∈ tags t) :
    findNode (t.map (fun nd => if nd.tag == n then ⟨n, p⟩ else nd)) n = some ⟨n, p⟩ := by
  induction t with
  | nil => simp [tags] at h
  | cons hd tl ih =>
    by_cases hh : hd.tag = n
    · have e1 : (hd.tag == n) = true := beq_iff_eq.mpr hh
      rw [List.map_cons, if_pos e1]
      simp [findNode]
    · have e1 : (hd.tag == n) = false := beq_eq_false_iff_ne.mpr hh
      have h' : n ∈ tags tl := by
        rcases List.mem_cons.mp (by simpa [tags_cons] using h) with h1 | h1
        · exact absurd h1.symm hh
        · exact h1
      rw [List.map_cons, if_neg (by simp [e1])]
      simp only [findNode]
      rw [if_neg (by simp [e1])]
      exact ih h'

theorem findNode_map_replace_other {t : Tree} {m n : String} (p : Option String)
    (h : m ≠ n) :
    findNode (t.map (fun nd => if nd.tag == m then ⟨m, p⟩ else nd)) n = findNode t n := by
  induction t with
  | nil => rfl
  | cons hd tl ih =>
    by_cases hhm : hd.tag = m
    · have e1 : (hd.tag == m) = true := beq_iff_eq.mpr hhm
      have e2 : ((⟨m, p⟩ : TNode).tag == n) = false := beq_eq_false_iff_ne.mpr h
      have e3 : (hd.tag == n) = false := beq_eq_false_iff_ne.mpr (by rw [hhm]; exact h)
      rw [List.map_cons, if_pos e1]
      simp only [findNode]
      rw [if_neg (by simp [e2]), if_neg (by simp [e3])]
      exact ih
    · have e1 : (hd.tag == m) = false := beq_eq_false_iff_ne.mpr hhm
      rw [List.map_cons, if_neg (by simp [e1])]
      by_cases hh : hd.tag = n
      · have e2 : (hd.tag == n) = true := beq_iff_eq.mpr hh
        simp only [findNode]
        rw [if_pos e2, if_pos e2]
      · have e2 : (hd.tag == n) = false := beq_eq_false_iff_ne.mpr hh
        simp only [findNode]
        rw [if_neg (by simp [e2]), if_neg (by simp [e2])]
        exact ih

theorem findNode_append_of_not_mem {t : Tree} {n : String} (u : Tree)
    (h : n ∉ tags t) : findNode (t ++ u) n = findNode u n := by
  induction t with
  | nil => simp
  | cons hd tl ih =>
    have h1 : hd.tag ≠ n := fun he => h (by simp [tags_cons, he])
    have h2 : n ∉ tags tl := fun hc => h (by simp [tags_cons, hc])
    simp [findNode, beq_eq_false_iff_ne.mpr h1, ih h2]

theorem findNode_append_singleton_other {m n : String} (t : Tree) (p : Option String)
    (h : m ≠ n) : findNode (t ++ [⟨m, p⟩]) n = findNode t n := by
  induction t with
  | nil => simp [findNode, beq_eq_false_iff_ne.mpr h]
  | cons hd tl ih =>
    by_cases hh : hd.tag = n
    · have e : (hd.tag == n) = true := beq_iff_eq.mpr hh
      simp [findNode, e]
    · have e : (hd.tag == n) = false := beq_eq_false_iff_ne.mpr hh
      simp [findNode, e, ih]

theorem findNode_create_self (t : Tree) (n : String) (p : Option String) :
    findNode (create_node t n p) n = some ⟨n, p⟩ := by
  by_cases h : n ∈ tags t
  · have hany : (t.any (·.tag == n)) = true := by
      rw [anyTag_eq_treeContains, treeContains_iff_mem]
      exact h
    simp only [create_node, hany, if_true]
    exact findNode_map_replace p h
  · rw [create_node_fresh h]
    rw [findNode_append_of_not_mem _ h]
    simp [findNode]

theorem findNode_create_other (t : Tree) {m n : String} (p : Option String)
    (h : m ≠ n) : findNode (create_node t m p) n = findNode t n := by
  by_cases hm : m ∈ tags t
  · have hany : (t.any (·.tag == m)) = true := by
      rw [anyTag_eq_treeContains, treeContains_iff_mem]
      exact hm
    simp only [create_node, hany, if_true]
    exact findNode_map_replace_other p h
  · rw [create_node_fresh hm]
    exact findNode_append_singleton_other t p h

theorem applyEvents_untouched :
    ∀ (evs : List (String × String)) (t : Tree) (n : String),
      n ∉ evs.map Prod.fst →
      findNode (applyEvents t evs) n = findNode t n := by
  intro evs
  induction evs with
  | nil => intro t n _; rfl
  | cons e rest ih =>
    intro t n h
    obtain ⟨m, q⟩ := e
    simp only [List.map_cons, List.mem_cons] at h
    push_neg at h
    obtain ⟨h1, h2⟩ := h
    rw [applyEvents_cons]
    rw [ih _ _ h2]
    exact findNode_create_other t _ (fun he => h1 he.symm)

theorem applyEvents_last (t : Tree) (pre post : List (String × String)) (n p : String)
    (hpost : n ∉ post.map Prod.fst) :
    findNode (applyEvents t (pre ++ (n, p) :: post)) n = some ⟨n, some p⟩ := by
  rw [applyEvents_append, applyEvents_cons]
  rw [applyEvents_untouched post _ n hpost]
  exact findNode_create_self _ _ _

end OverwriteLemmas

section DeviceResolverLemmas

theorem get_devices_toValue :
    ∀ (gs : Groups) (g : String) (acc : List String),
      goodNames gs.names = true →
      get_devices gs.toValue g acc = .ok (acc ++ gs.hostsOf g)
  | .gnil, g, acc, _ => by
    simp [Groups.toValue, Groups.toPairs, Groups.hostsOf, get_devices, getDevItems]
  | .gcons n (.mk .noKids none) rest, g, acc, h => by
    rw [Groups.names] at h
    obtain ⟨hc, _, _, hrest⟩ := goodNames_head h
    rw [GroupDef.subnames] at hrest
    simp only [List.nil_append] at hrest
    have hIH : getDevItems rest.toPairs g acc = .ok (acc ++ rest.hostsOf g) :=
      get_devices_toValue rest g acc hrest
    simp [Groups.toValue, Groups.toPairs, GroupDef.toValue, get_devices, getDevItems,
      isIterable, pyContains, VEntries.hasKey, Groups.hostsOf, GroupDef.ownHosts,
      GroupDef.hostsBelow, beq_eq_false_iff_ne.mpr hc, hIH]
  | .gcons n (.mk .noKids (some hs)) rest, g, acc, h => by
    rw [Groups.names] at h
    obtain ⟨hc, _, _, hrest⟩ := goodNames_head h
    rw [GroupDef.subnames] at hrest
    simp only [List.nil_append] at hrest
    by_cases hng : n = g
    · subst hng
      have hIH : getDevItems rest.toPairs n (acc ++ hs.keys) =
          .ok ((acc ++ hs.keys) ++ rest.hostsOf n) :=
        get_devices_toValue rest n (acc ++ hs.keys) hrest
      simp [Groups.toValue, Groups.toPairs, GroupDef.toValue, get_devices, getDevItems,
        isIterable, pyContains, VEntries.hasKey, VEntries.dlookup, Groups.hostsOf,
        GroupDef.ownHosts, GroupDef.hostsBelow, beq_eq_false_iff_ne.mpr hc, hIH]
    · have hIH : getDevItems rest.toPairs g acc = .ok (acc ++ rest.hostsOf g) :=
        get_devices_toValue rest g acc hrest
      simp [Groups.toValue, Groups.toPairs, GroupDef.toValue, get_devices, getDevItems,
        isIterable, pyContains, VEntries.hasKey, VEntries.dlookup, Groups.hostsOf,
        GroupDef.ownHosts, GroupDef.hostsBelow, beq_eq_false_iff_ne.mpr hc,
        beq_eq_false_iff_ne.mpr hng, hIH]
  | .gcons n (.mk (.kids gs') none) rest, g, acc, h => by
    rw [Groups.names] at h
    obtain ⟨hc, _, _, hrest⟩ := goodNames_head h
    rw [GroupDef.subnames] at hrest
    obtain ⟨hsub, hrest'⟩ := goodNames_append hrest
    have hIH1 : getDevItems gs'.toPairs g acc = .ok (acc ++ gs'.hostsOf g) :=
      get_devices_toValue gs' g acc hsub
    have hIH2 : getDevItems rest.toPairs g (acc ++ gs'.hostsOf g) =
        .ok ((acc ++ gs'.hostsOf g) ++ rest.hostsOf g) :=
      get_devices_toValue rest g (acc ++ gs'.hostsOf g) hrest'
    simp [Groups.toValue, Groups.toPairs, GroupDef.toValue, get_devices, getDevItems,
      getDevsIntoChildren, isIterable, pyContains, VEntries.hasKey, Groups.hostsOf,
      GroupDef.ownHosts, GroupDef.hostsBelow, beq_eq_false_iff_ne.mpr hc, hIH1, hIH2]
  | .gcons n (.mk (.kids gs') (some hs)) rest, g, acc, h => by
    rw [Groups.names] at h
    obtain ⟨hc, _, _, hrest⟩ := goodNames_head h
    rw [GroupDef.subnames] at hrest
    obtain ⟨hsub, hrest'⟩ := goodNames_append hrest
    by_cases hng : n = g
    · subst hng
      have hIH1 : getDevItems gs'.toPairs n (acc ++ hs.keys) =
          .ok ((acc ++ hs.keys) ++ gs'.hostsOf n) :=
        get_devices_toValue gs' n (acc ++ hs.keys) hsub
      have hIH2 : getDevItems rest.toPairs n (acc ++ (hs.keys ++ gs'.hostsOf n)) =
          .ok ((acc ++ (hs.keys ++ gs'.hostsOf n)) ++ rest.hostsOf n) :=
        get_devices_toValue rest n (acc ++ (hs.keys ++ gs'.hostsOf n)) hrest'
      simp [Groups.toValue, Groups.toPairs, GroupDef.toValue, get_devices, getDevItems,
        getDevsIntoChildren, isIterable, pyContains, VEntries.hasKey, VEntries.dlookup,
        Groups.hostsOf, GroupDef.ownHosts, GroupDef.hostsBelow,
        beq_eq_false_iff_ne.mpr hc, hIH1, hIH2]
    · have hIH1 : getDevItems gs'.toPairs g acc = .ok (acc ++ gs'.hostsOf g) :=
        get_devices_toValue gs' g acc hsub
      have hIH2 : getDevItems rest.toPairs g (acc ++ gs'.hostsOf g) =
          .ok ((acc ++ gs'.hostsOf g) ++ rest.hostsOf g) :=
        get_devices_toValue rest g (acc ++ gs'.hostsOf g) hrest'
      simp [Groups.toValue, Groups.toPairs, GroupDef.toValue, get_devices, getDevItems,
        getDevsIntoChildren, isIterable, pyContains, VEntries.hasKey, VEntries.dlookup,
        Groups.hostsOf, GroupDef.ownHosts, GroupDef.hostsBelow,
        beq_eq_false_iff_ne.mpr hc, beq_eq_false_iff_ne.mpr hng, hIH1, hIH2]

theorem hostsOf_eq_nil :
    ∀ (gs : Groups) (g : String), g ∉ gs.names → gs.hostsOf g = []
  | .gnil, _, _ => rfl
  | .gcons n (.mk .noKids hs) rest, g, h => by
    have hn : n ≠ g := fun he => h (by simp [Groups.names, he])
    have hrest : g ∉ rest.names := fun hc =>
      h (by simp [Groups.names, GroupDef.subnames, hc])
    simp [Groups.hostsOf, GroupDef.hostsBelow, beq_eq_false_iff_ne.mpr hn,
      hostsOf_eq_nil rest g hrest]
  | .gcons n (.mk (.kids gs') hs) rest, g, h => by
    have hn : n ≠ g := fun he => h (by simp [Groups.names, he])
    have hsub : g ∉ gs'.names := fun hc =>
      h (by simp [Groups.names, GroupDef.subnames, hc])
    have hrest : g ∉ rest.names := fun hc =>
      h (by simp [Groups.names, GroupDef.subnames, hc])
    simp [Groups.hostsOf, GroupDef.hostsBelow, beq_eq_false_iff_ne.mpr hn,
      hostsOf_eq_nil gs' g hsub, hostsOf_eq_nil rest g hrest]

theorem findDef_mem :
    ∀ (gs : Groups) (g : String), (gs.findDef g).isSome = true ↔ g ∈ gs.names
  | .gnil, g => by simp [Groups.findDef, Groups.names]
  | .gcons n (.mk .noKids hs) rest, g => by
    by_cases hng : n = g
    · simp [Groups.findDef, beq_iff_eq, hng, Groups.names]
    · have hstep : Groups.findDef (.gcons n (.mk .noKids hs) rest) g = rest.findDef g := by
        simp [Groups.findDef, beq_eq_false_iff_ne.mpr hng, GroupDef.findBelow]
      rw [hstep, findDef_mem rest g]
      simp only [Groups.names, GroupDef.subnames, List.nil_append, List.mem_cons]
      constructor
      · exact fun h1 => Or.inr h1
      · rintro (h1 | h1)
        · exact absurd h1.symm hng
        · exact h1
  | .gcons n (.mk (.kids gs') hs) rest, g => by
    by_cases hng : n = g
    · simp [Groups.findDef, beq_iff_eq, hng, Groups.names]
    · rcases hfb : gs'.findDef g with _ | r
      · have h1 : g ∉ gs'.names := by
          rw [← findDef_mem gs' g]
          simp [hfb]
        have hstep : Groups.findDef (.gcons n (.mk (.kids gs') hs) rest) g =
            rest.findDef g := by
          simp [Groups.findDef, beq_eq_false_iff_ne.mpr hng, GroupDef.findBelow, hfb]
        rw [hstep, findDef_mem rest g]
        simp only [Groups.names, GroupDef.subnames, List.mem_cons, List.mem_append]
        constructor
        · exact fun h2 => Or.inr (Or.inr h2)
        · rintro (h2 | h2 | h2)
          · exact absurd h2.symm hng
          · exact absurd h2 h1
          · exact h2
      · have h1 : g ∈ gs'.names := by
          rw [← findDef_mem gs' g]
          simp [hfb]
        have hstep : Groups.findDef (.gcons n (.mk (.kids gs') hs) rest) g = some r := by
          simp [Groups.findDef, beq_eq_false_iff_ne.mpr hng, GroupDef.findBelow, hfb]
        rw [hstep]
        simp [Groups.names, GroupDef.subnames, h1]

theorem hostsOf_eq_directHosts :
    ∀ (gs : Groups) (g : String), gs.names.Nodup → gs.hostsOf g = gs.directHosts g
  | .gnil, g, _ => rfl
  | .gcons n d rest, g, hd => by
    rw [Groups.names, List.nodup_cons, List.nodup_append] at hd
    obtain ⟨hhead, hsubn, hrestn, hdisj⟩ := hd
    by_cases hng : n = g
    · subst hng
      have h1 : n ∉ d.subnames := fun hc => hhead (by simp [hc])
      have h2 : n ∉ rest.names := fun hc => hhead (by simp [hc])
      have hb : d.hostsBelow n = [] := by
        cases d with
        | mk k hs =>
          cases k with
          | noKids => rfl
          | kids gs' =>
            rw [GroupDef.hostsBelow]
            exact hostsOf_eq_nil gs' n (by simpa [GroupDef.subnames] using h1)
      simp [Groups.hostsOf, Groups.directHosts, Groups.findDef, hb,
        hostsOf_eq_nil rest n h2]
    · rcases d with ⟨k, hs⟩
      cases k with
      | noKids =>
        have hstep : Groups.findDef (.gcons n (.mk .noKids hs) rest) g =
            rest.findDef g := by
          simp [Groups.findDef, beq_eq_false_iff_ne.mpr hng, GroupDef.findBelow]
        have hl : Groups.hostsOf (.gcons n (.mk .noKids hs) rest) g =
            rest.hostsOf g := by
          simp [Groups.hostsOf, GroupDef.hostsBelow, beq_eq_false_iff_ne.mpr hng]
        rw [hl, hostsOf_eq_directHosts rest g hrestn]
        simp only [Groups.directHosts, hstep]
      | kids gs' =>
        have hsubn' : gs'.names.Nodup := by simpa [GroupDef.subnames] using hsubn
        rcases hfb : gs'.findDef g with _ | r
        · have h1 : g ∉ gs'.names := by
            rw [← findDef_mem gs' g]
            simp [hfb]
          have hstep : Groups.findDef (.gcons n (.mk (.kids gs') hs) rest) g =
              rest.findDef g := by
            simp [Groups.findDef, beq_eq_false_iff_ne.mpr hng, GroupDef.findBelow, hfb]
          have hl : Groups.hostsOf (.gcons n (.mk (.kids gs') hs) rest) g =
              rest.hostsOf g := by
            simp [Groups.hostsOf, GroupDef.hostsBelow, beq_eq_false_iff_ne.mpr hng,
              hostsOf_eq_nil gs' g h1]
          rw [hl, hostsOf_eq_directHosts rest g hrestn]
          simp only [Groups.directHosts, hstep]
        · have h1 : g ∈ gs'.names := by
            rw [← findDef_mem gs' g]
            simp [hfb]
          have h2 : g ∉ rest.names := fun hc =>
            hdisj (by simpa [GroupDef.subnames] using h1) hc
          have hstep : Groups.findDef (.gcons n (.mk (.kids gs') hs) rest) g =
              some r := by
            simp [Groups.findDef, beq_eq_false_iff_ne.mpr hng, GroupDef.findBelow, hfb]
          have hl : Groups.hostsOf (.gcons n (.mk (.kids gs') hs) rest) g =
              gs'.hostsOf g := by
            simp [Groups.hostsOf, GroupDef.hostsBelow, beq_eq_false_iff_ne.mpr hng,
              hostsOf_eq_nil rest g h2]
          rw [hl, hostsOf_eq_directHosts gs' g hsubn']
          simp only [Groups.directHosts, hstep, hfb]

end DeviceResolverLemmas

section ClaimBatchOne

/-- C2: for every inventory (structured groups with non-reserved names) in
which two groups share a name, the Tree Builder completes without any error
and the node created by the later occurrence overwrites the earlier node: the
final tree binds the name to the later creation's parent.  The first conjunct
ties creation events to declared group names. -/
theorem claimC2 (gs : Groups) (n p₁ p₂ : String)
    (pre mid post : List (String × String))
    (hg : goodNames gs.names = true)
    (he : gs.events CVP_ROOT_CONTAINER = pre ++ (n, p₁) :: (mid ++ (n, p₂) :: post))
    (hpost : ∀ q, (n, q) ∉ post) :
    (gs.events CVP_ROOT_CONTAINER).map Prod.fst = gs.names ∧
    ∃ t, serialize gs.toValue = .ok (some t) ∧ findNode t n = some ⟨n, some p₂⟩ := by
  refine ⟨events_names gs _, applyEvents initTree (gs.events CVP_ROOT_CONTAINER), ?_, ?_⟩
  · have h1 := serializeItems_eq_events gs CVP_ROOT_CONTAINER initTree hg
    simp [Groups.toValue, serialize, h1]
  · have hpost' : n ∉ post.map Prod.fst := by
      intro hc
      rcases List.mem_map.mp hc with ⟨e, hmem, hfst⟩
      refine hpost e.2 ?_
      have : (n, e.2) = e := by
        rw [← hfst]
      rw [this]
      exact hmem
    have hsplit : gs.events CVP_ROOT_CONTAINER =
        (pre ++ (n, p₁) :: mid) ++ (n, p₂) :: post := by
      rw [he]
      simp
    rw [hsplit]
    exact applyEvents_last initTree _ post n p₂ hpost'

/-- Closed instance of C2: the inventory `dupExample` declares `A` twice (at
top level under the root and again below `B`); the builder succeeds and the
surviving node for `A` is the later one, whose parent is `B`. -/
theorem claimC2_witness :
    (dupExample.events CVP_ROOT_CONTAINER).map Prod.fst = dupExample.names ∧
    ∃ t, serialize dupExample.toValue = .ok (some t) ∧
      findNode t "A" = some ⟨"A", some "B"⟩ :=
  claimC2 dupExample "A" "Tenant" "B" [] [("B", "Tenant")] []
    (by decide) (by decide) (by intro q; simp)

/-- C3: for every structured inventory and every root container name that is
not a node of the built tree (not the reserved root and not a group name),
`get_containers` fails with the lookup-failure condition and returns no
output mapping. -/
theorem claimC3 (gs : Groups) (root : String)
    (hg : goodNames gs.names = true)
    (habs : root ∉ CVP_ROOT_CONTAINER :: gs.names) :
    get_containers gs.toValue root = .error .nodeIDAbsent := by
  have h1 := serializeItems_eq_events gs CVP_ROOT_CONTAINER initTree hg
  have hroot1 : root ≠ CVP_ROOT_CONTAINER := fun he => habs (by simp [he])
  have hroot2 : root ∉ gs.names := fun hc => habs (by simp [hc])
  have e1 : (CVP_ROOT_CONTAINER == root) = false :=
    beq_eq_false_iff_ne.mpr (Ne.symm hroot1)
  have hfind : findNode (applyEvents initTree (gs.events CVP_ROOT_CONTAINER)) root = none := by
    rw [applyEvents_untouched _ _ _ (by rw [events_names]; exact hroot2)]
    simp [initTree, findNode, e1]
  have hcont : treeContains (applyEvents initTree (gs.events CVP_ROOT_CONTAINER)) root = false := by
    simp [treeContains, hfind]
  simp [get_containers, Groups.toValue, serialize, h1, hcont]

/-- Closed instance of C3: looking for root `X` in an inventory that only
declares `A` raises the lookup failure. -/
theorem claimC3_witness :
    get_containers oneGroupExample.toValue "X" = .error .nodeIDAbsent :=
  claimC3 oneGroupExample "X" (by decide) (by decide)

/-- C4: the mapping level of `c4input` holds the literal key `children` whose
value is a mapping without a `children` key; the source's recursive call in
that branch misspells its keyword argument (`devcices`), so instead of
recursing and completing, `get_devices` raises `TypeError` there. -/
theorem claimC4 : get_devices c4input "g1" [] = .error .typeError := rfl

/-- C8: for every structured inventory with unique, non-reserved group names
and a fresh empty collector, `get_devices` returns exactly the host names
declared directly under the searched group's own `hosts` mapping in
declaration order (the empty list if the group is absent or has no `hosts`
key); hosts of descendant sub-groups are never aggregated upward. -/
theorem claimC8 (gs : Groups) (g : String)
    (hg : goodNames gs.names = true) (hd : gs.names.Nodup) :
    get_devices gs.toValue g [] = .ok (gs.directHosts g) := by
  rw [get_devices_toValue gs g [] hg]
  rw [List.nil_append]
  rw [hostsOf_eq_directHosts gs g hd]

/-- Closed instance of C8: the leaf group `g` owns exactly `dev1, dev2`. -/
theorem claimC8_witness :
    get_devices hostsExample.toValue "g" [] = .ok ["dev1", "dev2"] := by
  rw [claimC8 hostsExample "g" (by decide) (by decide)]
  rfl

/-- C9: two logically independent calls that both omit the collector argument
share Python's single default list: after searching `g1`, a search for `g2`
through the shared default returns `d1` as well, while a fresh search for
`g2` returns only `d2` — the omitted-argument resolver is not a function of
its explicit inputs. -/
theorem claimC9 :
    get_devices_omitted inv9 "g1" [] = (.ok ["d1"], ["d1"]) ∧
    get_devices_omitted inv9 "g2" ["d1"] = (.ok ["d1", "d2"], ["d1", "d2"]) ∧
    get_devices_omitted inv9 "g2" [] = (.ok ["d2"], ["d2"]) ∧
    "d1" ∈ ["d1", "d2"] ∧ ["d1", "d2"] ≠ ["d2"] := by
  refine ⟨rfl, rfl, rfl, by decide, by decide⟩

/-- C10: for every non-iterable input (a number or None), the Tree Builder
returns no tree at all, and `get_containers` then fails on the absent tree
object (`AttributeError`), not with the missing-root condition. -/
theorem claimC10 (v : Value) (h : isIterable v = false) :
    serialize v = .ok none ∧
      (∀ root, get_containers v root = .error .attributeError) ∧
      (∀ root, get_containers v root ≠ .error .nodeIDAbsent) := by
  cases v with
  | vmap es => simp [isIterable] at h
  | vstr s => simp [isIterable] at h
  | vnum i =>
    refine ⟨rfl, fun _ => rfl, fun root hbad => ?_⟩
    rw [show get_containers (Value.vnum i) root = .error .attributeError from rfl] at hbad
    simp at hbad
  | vnone =>
    refine ⟨rfl, fun _ => rfl, fun root hbad => ?_⟩
    rw [show get_containers Value.vnone root = .error .attributeError from rfl] at hbad
    simp at hbad

/-- Closed instance of C10 at the input `None`. -/
theorem claimC10_witness :
    serialize .vnone = .ok none ∧
      (∀ root, get_containers .vnone root = .error .attributeError) ∧
      (∀ root, get_containers .vnone root ≠ .error .nodeIDAbsent) :=
  claimC10 .vnone rfl

end ClaimBatchOne

section TraversalLemmas

theorem flatMap_congr {α β : Type} (l : List α) (f g : α → List β)
    (h : ∀ a ∈ l, f a = g a) : l.flatMap f = l.flatMap g := by
  induction l with
  | nil => rfl
  | cons hd tl ih =>
    simp only [List.flatMap_cons]
    rw [h hd (List.mem_cons_self _ _), ih (fun a ha => h a (List.mem_cons_of_mem _ ha))]

theorem childrenOf_spec {t : Tree} {p c : String} :
    c ∈ childrenOf t p ↔ ∃ nd, nd ∈ t ∧ nd.parent = some p ∧ nd.tag = c := by
  simp only [childrenOf, tags, List.mem_map, List.mem_filter]
  constructor
  · rintro ⟨nd, ⟨h1, h2⟩, h3⟩
    exact ⟨nd, h1, by simpa using h2, h3⟩
  · rintro ⟨nd, h1, h2, h3⟩
    exact ⟨nd, ⟨h1, by simpa using h2⟩, h3⟩

theorem child_mem_tags {t : Tree} {p c : String} (h : c ∈ childrenOf t p) :
    c ∈ tags t := by
  rcases childrenOf_spec.mp h with ⟨nd, h1, _, h3⟩
  rw [← h3]
  exact List.mem_map_of_mem _ h1

theorem child_rank_gt {t : Tree} (gt : goodTree t) {p c : String}
    (h : c ∈ childrenOf t p) : rankAux t p < rankAux t c := by
  rcases childrenOf_spec.mp h with ⟨nd, h1, h2, h3⟩
  have := gt.2 nd h1 p h2
  rwa [h3] at this

theorem parentOf_of_child {t : Tree} (hn : (tags t).Nodup) {p c : String}
    (h : c ∈ childrenOf t p) : parentOf t c = some p := by
  rcases childrenOf_spec.mp h with ⟨nd, h1, h2, h3⟩
  have := findNode_of_mem_nodup hn h1
  rw [h3] at this
  simp [parentOf, this, h2]

theorem child_of_parentOf {t : Tree} {p c : String}
    (h : parentOf t c = some p) : c ∈ childrenOf t p := by
  rcases Option.bind_eq_some.mp h with ⟨nd, hfind, hpar⟩
  rcases findNode_mem hfind with ⟨hmem, htag⟩
  exact childrenOf_spec.mpr ⟨nd, hmem, hpar, htag⟩

theorem parentOf_rank {t : Tree} (gt : goodTree t) {p c : String}
    (h : parentOf t c = some p) :
    rankAux t p < rankAux t c ∧ p ∈ tags t ∧ c ∈ tags t := by
  rcases Option.bind_eq_some.mp h with ⟨nd, hfind, hpar⟩
  rcases findNode_mem hfind with ⟨hmem, htag⟩
  have h1 := gt.2 nd hmem p hpar
  rw [htag] at h1
  have hcm : c ∈ tags t := by
    rw [← htag]
    exact List.mem_map_of_mem _ hmem
  have hcl := rank_lt_of_mem hcm
  exact ⟨h1, mem_of_rank_lt (by omega), hcm⟩

theorem expand_stable (t : Tree) (gt : goodTree t) :
    ∀ (b : Nat) (nid : String), nid ∈ tags t → t.length - rankAux t nid = b →
      ∀ f, b ≤ f → expand_tree t f nid = expand_tree t b nid := by
  intro b
  induction b using Nat.strong_induction_on with
  | _ b ih =>
    intro nid hmem hb f hf
    have hrank : rankAux t nid < t.length := rank_lt_of_mem hmem
    obtain ⟨b', rfl⟩ : ∃ b', b = b' + 1 := ⟨b - 1, by omega⟩
    obtain ⟨f', rfl⟩ : ∃ f', f = f' + 1 := ⟨f - 1, by omega⟩
    simp only [expand_tree]
    congr 1
    apply flatMap_congr
    intro c hc
    have hcm : c ∈ tags t := child_mem_tags hc
    have hcr : rankAux t nid < rankAux t c := child_rank_gt gt hc
    have hcl : rankAux t c < t.length := rank_lt_of_mem hcm
    have hbc : t.length - rankAux t c < b' + 1 := by omega
    have e1 := ih _ hbc c hcm rfl f' (by omega)
    have e2 := ih _ hbc c hcm rfl b' (by omega)
    rw [e1, e2]

theorem expandF_unfold {t : Tree} (gt : goodTree t) {nid : String} (hmem : nid ∈ tags t) :
    expandF t nid = nid :: (childrenOf t nid).flatMap (expandF t) := by
  have hrank := rank_lt_of_mem hmem
  have h1 := expand_stable t gt (t.length - rankAux t nid) nid hmem rfl t.length (by omega)
  have h2 := expand_stable t gt (t.length - rankAux t nid) nid hmem rfl (t.length + 1) (by omega)
  rw [expandF, h1, ← h2]
  simp only [expand_tree]
  rfl

theorem isDescAux_mono {t : Tree} {root : String} :
    ∀ {f g : Nat} {c : String}, isDescAux t f root c = true → f ≤ g →
      isDescAux t g root c = true := by
  intro f
  induction f with
  | zero => intro g c h _; simp [isDescAux] at h
  | succ f ih =>
    intro g c h hle
    obtain ⟨g', rfl⟩ : ∃ g', g = g' + 1 := ⟨g - 1, by omega⟩
    simp only [isDescAux, Bool.or_eq_true] at h ⊢
    rcases h with h | h
    · exact Or.inl h
    · right
      rcases hp : parentOf t c with _ | p
      · rw [hp] at h
        simp at h
      · rw [hp] at h
        exact ih h (by omega)

theorem descAux_compress {t : Tree} (gt : goodTree t) {root : String} :
    ∀ {f : Nat} {c : String}, isDescAux t f root c = true →
      isDescAux t (rankAux t c + 1) root c = true := by
  intro f
  induction f with
  | zero => intro c h; simp [isDescAux] at h
  | succ f ih =>
    intro c h
    simp only [isDescAux, Bool.or_eq_true] at h ⊢
    rcases h with h | h
    · exact Or.inl h
    · right
      rcases hp : parentOf t c with _ | p
      · rw [hp] at h
        simp at h
      · rw [hp] at h
        have h1 := ih h
        have h2 := (parentOf_rank gt hp).1
        exact isDescAux_mono h1 (by omega)

theorem desc_lift {t : Tree} (gt : goodTree t) {root c : String}
    (hroot : root ∈ tags t) {f : Nat} (h : isDescAux t f root c = true) :
    isDesc t root c = true := by
  have hc := descAux_compress gt h
  have hlen : 1 ≤ t.length := by
    have := rank_lt_of_mem hroot
    omega
  by_cases hm : c ∈ tags t
  · have := rank_lt_of_mem hm
    exact isDescAux_mono hc (by omega)
  · rw [rank_eq_length_of_not_mem hm] at hc
    obtain ⟨f', rfl⟩ : ∃ f', f = f' + 1 := by
      cases f with
      | zero => simp [isDescAux] at h
      | succ f => exact ⟨f, rfl⟩
    simp only [isDescAux, Bool.or_eq_true] at h
    rcases h with h | h
    · have hcr : c = root := by simpa using h
      rw [hcr] at hm
      exact absurd hroot hm
    · rcases hp : parentOf t c with _ | p
      · rw [hp] at h
        simp at h
      · exact absurd (parentOf_rank gt hp).2.2 hm

theorem desc_refl {t : Tree} {root : String} (hroot : root ∈ tags t) :
    isDesc t root root = true := by
  have := rank_lt_of_mem hroot
  obtain ⟨l, hl⟩ : ∃ l, t.length = l + 1 := ⟨t.length - 1, by omega⟩
  unfold isDesc
  rw [hl]
  simp [isDescAux]

theorem desc_step {t : Tree} (gt : goodTree t) {root p c : String}
    (hroot : root ∈ tags t) (hp : parentOf t c = some p)
    (h : isDesc t root p = true) : isDesc t root c = true := by
  have h1 : isDescAux t (t.length + 1) root c = true := by
    simp only [isDescAux, Bool.or_eq_true, hp]
    exact Or.inr h
  exact desc_lift gt hroot h1

theorem desc_rank {t : Tree} (gt : goodTree t) {a : String} :
    ∀ {f : Nat} {c : String}, isDescAux t f a c = true → rankAux t a ≤ rankAux t c := by
  intro f
  induction f with
  | zero => intro c h; simp [isDescAux] at h
  | succ f ih =>
    intro c h
    simp only [isDescAux, Bool.or_eq_true] at h
    rcases h with h | h
    · have : c = a := by simpa using h
      rw [this]
    · rcases hp : parentOf t c with _ | p
      · rw [hp] at h
        simp at h
      · rw [hp] at h
        have h1 := ih h
        have h2 := (parentOf_rank gt hp).1
        omega

theorem desc_parent {t : Tree} {root c : String}
    (h : isDesc t root c = true) (hne : c ≠ root) :
    ∃ p, parentOf t c = some p ∧ isDesc t root p = true := by
  unfold isDesc at h
  obtain ⟨l, hl⟩ : ∃ l, t.length = l + 1 := by
    cases hlen : t.length with
    | zero => rw [hlen] at h; simp [isDescAux] at h
    | succ l => exact ⟨l, rfl⟩
  rw [hl] at h
  simp only [isDescAux, Bool.or_eq_true] at h
  rcases h with h | h
  · exact absurd (by simpa using h) hne
  · rcases hp : parentOf t c with _ | p
    · rw [hp] at h
      simp at h
    · rw [hp] at h
      exact ⟨p, rfl, isDescAux_mono h (by omega)⟩

theorem desc_trans {t : Tree} (gt : goodTree t) {root : String}
    (hroot : root ∈ tags t) :
    ∀ {f : Nat} {b c : String}, isDescAux t f b c = true →
      isDesc t root b = true → isDesc t root c = true := by
  intro f
  induction f with
  | zero => intro b c h _; simp [isDescAux] at h
  | succ f ih =>
    intro b c h hb
    simp only [isDescAux, Bool.or_eq_true] at h
    rcases h with h | h
    · have : c = b := by simpa using h
      rwa [this]
    · rcases hp : parentOf t c with _ | p
      · rw [hp] at h
        simp at h
      · rw [hp] at h
        exact desc_step gt hroot hp (ih h hb)

theorem desc_mem_tags {t : Tree} {root c : String}
    (h : isDesc t root c = true) (hroot : root ∈ tags t) : c ∈ tags t := by
  by_cases hcr : c = root
  · rwa [hcr]
  · rcases desc_parent h hcr with ⟨p, hp, _⟩
    rcases Option.bind_eq_some.mp hp with ⟨nd, hfind, _⟩
    rcases findNode_mem hfind with ⟨hmem, htag⟩
    rw [← htag]
    exact List.mem_map_of_mem _ hmem

end TraversalLemmas

section TraversalLemmasB

theorem mem_expandF_desc {t : Tree} (gt : goodTree t) :
    ∀ (b : Nat) (nid : String), nid ∈ tags t → t.length - rankAux t nid = b →
      ∀ c, c ∈ expandF t nid → isDesc t nid c = true := by
  intro b
  induction b using Nat.strong_induction_on with
  | _ b ih =>
    intro nid hmem hb c hc
    rw [expandF_unfold gt hmem] at hc
    rcases List.mem_cons.mp hc with h | h
    · rw [h]
      exact desc_refl hmem
    · rcases List.mem_flatMap.mp h with ⟨ch, hch, hcc⟩
      have hchm := child_mem_tags hch
      have hcr := child_rank_gt gt hch
      have hcl := rank_lt_of_mem hchm
      have hrank := rank_lt_of_mem hmem
      have h1 := ih (t.length - rankAux t ch) (by omega) ch hchm rfl c hcc
      have h2 : parentOf t ch = some nid := parentOf_of_child gt.1 hch
      have h3 : isDesc t nid ch = true := desc_step gt hmem h2 (desc_refl hmem)
      exact desc_trans gt hmem h1 h3

theorem child_mem_expandF {t : Tree} (gt : goodTree t) :
    ∀ (b : Nat) (nid : String), nid ∈ tags t → t.length - rankAux t nid = b →
      ∀ p c, p ∈ expandF t nid → c ∈ childrenOf t p → c ∈ expandF t nid := by
  intro b
  induction b using Nat.strong_induction_on with
  | _ b ih =>
    intro nid hmem hb p c hp hc
    rw [expandF_unfold gt hmem] at hp ⊢
    rcases List.mem_cons.mp hp with h | h
    · subst h
      refine List.mem_cons_of_mem _ (List.mem_flatMap.mpr ⟨c, hc, ?_⟩)
      rw [expandF_unfold gt (child_mem_tags hc)]
      exact List.mem_cons_self _ _
    · rcases List.mem_flatMap.mp h with ⟨ch, hch, hpc⟩
      have hchm := child_mem_tags hch
      have hcr := child_rank_gt gt hch
      have hcl := rank_lt_of_mem hchm
      have hrank := rank_lt_of_mem hmem
      have h1 := ih (t.length - rankAux t ch) (by omega) ch hchm rfl p c hpc hc
      exact List.mem_cons_of_mem _ (List.mem_flatMap.mpr ⟨ch, hch, h1⟩)

theorem desc_mem_expandF {t : Tree} (gt : goodTree t) {nid : String} (hmem : nid ∈ tags t) :
    ∀ {f : Nat} {c : String}, isDescAux t f nid c = true → c ∈ expandF t nid := by
  intro f
  induction f with
  | zero => intro c h; simp [isDescAux] at h
  | succ f ih =>
    intro c h
    simp only [isDescAux, Bool.or_eq_true] at h
    rcases h with h | h
    · have hcn : c = nid := by simpa using h
      rw [hcn, expandF_unfold gt hmem]
      exact List.mem_cons_self _ _
    · rcases hp : parentOf t c with _ | p
      · rw [hp] at h
        simp at h
      · rw [hp] at h
        have h1 := ih h
        exact child_mem_expandF gt (t.length - rankAux t nid) nid hmem rfl p c h1
          (child_of_parentOf hp)

theorem mem_expandF_tags {t : Tree} (gt : goodTree t) {nid : String} (hmem : nid ∈ tags t)
    {c : String} (hc : c ∈ expandF t nid) : c ∈ tags t :=
  desc_mem_tags (mem_expandF_desc gt (t.length - rankAux t nid) nid hmem rfl c hc) hmem

theorem desc_total {t : Tree} (gt : goodTree t) {a b : String}
    (ha : a ∈ tags t) (hb : b ∈ tags t) :
    ∀ {f g : Nat} {c : String}, isDescAux t f a c = true → isDescAux t g b c = true →
      isDesc t a b = true ∨ isDesc t b a = true := by
  intro f
  induction f with
  | zero => intro g c h _; simp [isDescAux] at h
  | succ f ih =>
    intro g c h h2
    by_cases hca : c = a
    · right
      rw [hca] at h2
      exact desc_lift gt hb h2
    · by_cases hcb : c = b
      · left
        rw [hcb] at h
        exact desc_lift gt ha h
      · simp only [isDescAux, Bool.or_eq_true] at h
        rcases h with h | h
        · exact absurd (by simpa using h) hca
        · obtain ⟨g', rfl⟩ : ∃ g', g = g' + 1 := by
            cases g with
            | zero => simp [isDescAux] at h2
            | succ g => exact ⟨g, rfl⟩
          simp only [isDescAux, Bool.or_eq_true] at h2
          rcases h2 with h2 | h2
          · exact absurd (by simpa using h2) hcb
          · rcases hp : parentOf t c with _ | p
            · rw [hp] at h
              simp at h
            · rw [hp] at h h2
              exact ih h h2

theorem children_disjoint {t : Tree} (gt : goodTree t) {nid ch₁ ch₂ c : String}
    (h1 : ch₁ ∈ childrenOf t nid) (h2 : ch₂ ∈ childrenOf t nid) (hne : ch₁ ≠ ch₂)
    (hd1 : isDesc t ch₁ c = true) (hd2 : isDesc t ch₂ c = true) : False := by
  have hm1 := child_mem_tags h1
  have hm2 := child_mem_tags h2
  rcases desc_total gt hm1 hm2 hd1 hd2 with h | h
  · rcases desc_parent h (Ne.symm hne) with ⟨p, hp, hdp⟩
    have hother := parentOf_of_child gt.1 h2
    rw [hp] at hother
    have hpn : p = nid := Option.some.inj hother
    rw [hpn] at hdp
    have ha := desc_rank gt hdp
    have hb := child_rank_gt gt h1
    omega
  · rcases desc_parent h hne with ⟨p, hp, hdp⟩
    have hother := parentOf_of_child gt.1 h1
    rw [hp] at hother
    have hpn : p = nid := Option.some.inj hother
    rw [hpn] at hdp
    have ha := desc_rank gt hdp
    have hb := child_rank_gt gt h2
    omega

theorem childrenOf_nodup {t : Tree} (hn : (tags t).Nodup) (p : String) :
    (childrenOf t p).Nodup := by
  have hs : List.Sublist (childrenOf t p) (tags t) :=
    List.Sublist.map _ (List.filter_sublist t)
  exact List.Nodup.sublist hs hn

theorem expandF_nodup {t : Tree} (gt : goodTree t) :
    ∀ (b : Nat) (nid : String), nid ∈ tags t → t.length - rankAux t nid = b →
      (expandF t nid).Nodup := by
  intro b
  induction b using Nat.strong_induction_on with
  | _ b ih =>
    intro nid hmem hb
    rw [expandF_unfold gt hmem, List.nodup_cons]
    have hrank := rank_lt_of_mem hmem
    constructor
    · intro hc
      rcases List.mem_flatMap.mp hc with ⟨ch, hch, hcc⟩
      have hd := mem_expandF_desc gt (t.length - rankAux t ch) ch (child_mem_tags hch) rfl nid hcc
      have hr1 := desc_rank gt hd
      have hr2 := child_rank_gt gt hch
      omega
    · have main : ∀ l : List String, l.Nodup → (∀ x ∈ l, x ∈ childrenOf t nid) →
          (l.flatMap (expandF t)).Nodup := by
        intro l
        induction l with
        | nil => intro _ _; simp
        | cons hd tl ihl =>
          intro hnd hsub
          rw [List.flatMap_cons, List.nodup_append]
          have hhd := hsub hd (List.mem_cons_self _ _)
          have hhdm := child_mem_tags hhd
          have hhdr := child_rank_gt gt hhd
          have hhdl := rank_lt_of_mem hhdm
          refine ⟨?_, ?_, ?_⟩
          · exact ih (t.length - rankAux t hd) (by omega) hd hhdm rfl
          · exact ihl (List.nodup_cons.mp hnd).2
              (fun x hx => hsub x (List.mem_cons_of_mem _ hx))
          · intro c hc1 hc2
            rcases List.mem_flatMap.mp hc2 with ⟨ch₂, hch₂, hcc₂⟩
            have hch₂m := hsub ch₂ (List.mem_cons_of_mem _ hch₂)
            have hne : hd ≠ ch₂ := fun he => (List.nodup_cons.mp hnd).1 (he ▸ hch₂)
            have hd1 := mem_expandF_desc gt (t.length - rankAux t hd) hd hhdm rfl c hc1
            have hd2 := mem_expandF_desc gt (t.length - rankAux t ch₂) ch₂
              (child_mem_tags hch₂m) rfl c hcc₂
            exact children_disjoint gt hhd hch₂m hne hd1 hd2
      exact main (childrenOf t nid) (childrenOf_nodup gt.1 nid) (fun x hx => hx)

theorem desc_contiguous {t : Tree} (gt : goodTree t) {root : String}
    (hroot : root ∈ tags t) :
    ∀ {f : Nat} {p : String}, isDescAux t f root p = true →
      ∃ pre post, expandF t root = pre ++ (expandF t p ++ post) := by
  intro f
  induction f with
  | zero => intro p h; simp [isDescAux] at h
  | succ f ih =>
    intro p h
    simp only [isDescAux, Bool.or_eq_true] at h
    rcases h with h | h
    · have hpr : p = root := by simpa using h
      exact ⟨[], [], by simp [hpr]⟩
    · rcases hq : parentOf t p with _ | q
      · rw [hq] at h
        simp at h
      · rw [hq] at h
        rcases ih h with ⟨pre, post, hsplit⟩
        have hqm : q ∈ tags t := (parentOf_rank gt hq).2.1
        have hpq : p ∈ childrenOf t q := child_of_parentOf hq
        rcases List.append_of_mem hpq with ⟨s, u, hsu⟩
        have hunf := expandF_unfold gt hqm
        rw [hsu, List.flatMap_append, List.flatMap_cons] at hunf
        refine ⟨pre ++ (q :: s.flatMap (expandF t)), u.flatMap (expandF t) ++ post, ?_⟩
        rw [hsplit, hunf]
        simp

theorem Before_extend {x y : String} {m : List String} (h : Before x y m)
    (a b : List String) : Before x y (a ++ (m ++ b)) := by
  rcases h with ⟨l₁, l₂, l₃, rfl⟩
  exact ⟨a ++ l₁, l₂, l₃ ++ b, by simp⟩

theorem Before_head {x y : String} {rest : List String} (h : y ∈ rest) :
    Before x y (x :: rest) := by
  rcases List.append_of_mem h with ⟨s, u, rfl⟩
  exact ⟨[], s, u, by simp⟩

theorem parent_before {t : Tree} (gt : goodTree t) {root c : String}
    (hroot : root ∈ tags t) (hc : c ∈ expandF t root) (hne : c ≠ root) :
    ∃ p, parentOf t c = some p ∧ Before p c (expandF t root) := by
  have hd := mem_expandF_desc gt (t.length - rankAux t root) root hroot rfl c hc
  rcases desc_parent hd hne with ⟨p, hp, hdp⟩
  refine ⟨p, hp, ?_⟩
  have hpm : p ∈ tags t := (parentOf_rank gt hp).2.1
  rcases desc_contiguous gt hroot hdp with ⟨pre, post, hsplit⟩
  have hcp : c ∈ expandF t p := by
    have hstepc : isDescAux t (t.length + 1) p c = true := by
      simp only [isDescAux, Bool.or_eq_true, hp]
      right
      exact desc_refl hpm
    exact desc_mem_expandF gt hpm hstepc
  have hcnep : c ≠ p := by
    intro he
    have := (parentOf_rank gt hp).1
    rw [he] at this
    omega
  have hunf := expandF_unfold gt hpm
  rw [hunf] at hcp
  rcases List.mem_cons.mp hcp with h | h
  · exact absurd h hcnep
  · have hb : Before p c (expandF t p) := by
      rw [hunf]
      exact Before_head h
    rw [hsplit]
    exact Before_extend hb pre post

theorem sibling_before {t : Tree} (gt : goodTree t) {root p a b : String}
    (hroot : root ∈ tags t) (hdp : isDesc t root p = true)
    {l₁ l₂ l₃ : List String}
    (hsplit : childrenOf t p = l₁ ++ a :: (l₂ ++ b :: l₃)) :
    Before a b (expandF t root) := by
  have hpm : p ∈ tags t := desc_mem_tags hdp hroot
  rcases desc_contiguous gt hroot hdp with ⟨pre, post, hcont⟩
  have ham : a ∈ childrenOf t p := by
    rw [hsplit]
    simp
  have hbm : b ∈ childrenOf t p := by
    rw [hsplit]
    simp
  have hunfa := expandF_unfold gt (child_mem_tags ham)
  have hunfb := expandF_unfold gt (child_mem_tags hbm)
  have hunf := expandF_unfold gt hpm
  rw [hsplit, List.flatMap_append, List.flatMap_cons, List.flatMap_append,
    List.flatMap_cons] at hunf
  have hbefore : Before a b (expandF t p) :=
    ⟨p :: l₁.flatMap (expandF t),
     (childrenOf t a).flatMap (expandF t) ++ l₂.flatMap (expandF t),
     (childrenOf t b).flatMap (expandF t) ++ l₃.flatMap (expandF t), by
      rw [hunf, hunfa, hunfb]
      simp⟩
  rw [hcont]
  exact Before_extend hbefore pre post

theorem length_filter_ne_of_nodup {l : List String} {a : String}
    (hn : l.Nodup) (ha : a ∈ l) :
    (l.filter (fun c => !(c == a))).length = l.length - 1 := by
  induction l with
  | nil => simp at ha
  | cons hd tl ih =>
    rcases List.mem_cons.mp ha with h | h
    · have hnot : hd ∉ tl := (List.nodup_cons.mp hn).1
      rw [← h] at hnot
      have heq : hd = a := h.symm
      subst heq
      rw [List.filter_cons]
      have e : (!(hd == hd)) = false := by simp
      rw [e]
      have hrest : tl.filter (fun c => !(c == hd)) = tl := by
        apply List.filter_eq_self.mpr
        intro x hx
        simp only [Bool.not_eq_true']
        exact beq_eq_false_iff_ne.mpr (fun he => hnot (he ▸ hx))
      simp [hrest]
    · have hne : hd ≠ a := fun he => (List.nodup_cons.mp hn).1 (he ▸ h)
      rw [List.filter_cons]
      have e : (!(hd == a)) = true := by
        simp [beq_eq_false_iff_ne.mpr hne]
      rw [e]
      simp only [if_true, List.length_cons]
      rw [ih (List.nodup_cons.mp hn).2 h]
      have hpos : 1 ≤ tl.length := List.length_pos.mpr (List.ne_nil_of_mem h)
      omega

theorem length_expandF_eq {t : Tree} (gt : goodTree t) {root : String}
    (hroot : root ∈ tags t) :
    (expandF t root).length = (subtreeTags t root).length := by
  have h1 : (expandF t root).Nodup :=
    expandF_nodup gt (t.length - rankAux t root) root hroot rfl
  have h2 : (subtreeTags t root).Nodup := List.Nodup.filter _ gt.1
  have hmem : ∀ c, c ∈ expandF t root ↔ c ∈ subtreeTags t root := by
    intro c
    rw [subtreeTags, List.mem_filter]
    constructor
    · intro hc
      exact ⟨mem_expandF_tags gt hroot hc,
        mem_expandF_desc gt (t.length - rankAux t root) root hroot rfl c hc⟩
    · rintro ⟨_, hd⟩
      exact desc_mem_expandF gt hroot hd
  have hs1 : List.Subperm (expandF t root) (subtreeTags t root) :=
    List.subperm_of_subset h1 (fun c hc => (hmem c).mp hc)
  have hs2 : List.Subperm (subtreeTags t root) (expandF t root) :=
    List.subperm_of_subset h2 (fun c hc => (hmem c).mpr hc)
  exact Nat.le_antisymm hs1.length_le hs2.length_le

end TraversalLemmasB

section RecordLemmas

theorem findNode_tenant (gs : Groups) :
    findNode gs.tree CVP_ROOT_CONTAINER = some ⟨CVP_ROOT_CONTAINER, none⟩ := by
  simp [Groups.tree, initTree, findNode]

theorem parentOf_tenant (gs : Groups) :
    parentOf gs.tree CVP_ROOT_CONTAINER = none := by
  simp [parentOf, findNode_tenant]

theorem desc_tenant {gs : Groups} {root : String} {f : Nat}
    (h : isDescAux gs.tree f root CVP_ROOT_CONTAINER = true) :
    root = CVP_ROOT_CONTAINER := by
  cases f with
  | zero => simp [isDescAux] at h
  | succ f =>
    simp only [isDescAux, Bool.or_eq_true] at h
    rcases h with h | h
    · exact (by simpa using h : CVP_ROOT_CONTAINER = root).symm
    · rw [parentOf_tenant] at h
      simp at h

theorem recordFor_ok (gs : Groups) (root c : String)
    (hg : goodNames gs.names = true) (hd : gs.names.Nodup)
    (hc : c ∈ tags gs.tree) (hct : c ≠ CVP_ROOT_CONTAINER) :
    recordFor gs.toValue gs.tree root c = .ok (specRecord gs root c) := by
  obtain ⟨nd, hnd⟩ : ∃ nd, findNode gs.tree c = some nd :=
    Option.isSome_iff_exists.mp ((findNode_isSome_iff_mem gs.tree c).mpr hc)
  by_cases hcr : c = root
  · have e : (c == root) = true := beq_iff_eq.mpr hcr
    simp [recordFor, specRecord, hnd, e]
  · have e : (c == root) = false := beq_eq_false_iff_ne.mpr hcr
    rcases tree_parent_isSome hct hnd with ⟨p, hp⟩
    have hpar : parentOf gs.tree c = some p := by
      simp [parentOf, hnd, hp]
    by_cases hpt : p = CVP_ROOT_CONTAINER
    · have e2 : (p == CVP_ROOT_CONTAINER) = true := beq_iff_eq.mpr hpt
      simp [recordFor, specRecord, hnd, hp, hpar, e, e2]
    · have e2 : (p == CVP_ROOT_CONTAINER) = false := beq_eq_false_iff_ne.mpr hpt
      by_cases hleaf : isLeaf gs.tree c
      · have hdev : get_devices gs.toValue c [] = .ok (gs.directHosts c) := by
          rw [get_devices_toValue gs c [] hg, List.nil_append,
            hostsOf_eq_directHosts gs c hd]
        simp [recordFor, specRecord, hnd, hp, hpar, e, e2, hleaf, hdev]
      · have hleaf' : isLeaf gs.tree c = false := by
          rw [← Bool.not_eq_true]
          exact hleaf
        simp [recordFor, specRecord, hnd, hp, hpar, e, e2, hleaf']

theorem dictInsert_fresh {acc : List (String × Record)} {k : String} (r : Record)
    (h : k ∉ acc.map Prod.fst) : dictInsert acc k r = acc ++ [(k, r)] := by
  induction acc with
  | nil => rfl
  | cons hd tl ih =>
    obtain ⟨k', r'⟩ := hd
    have h1 : k' ≠ k := fun he => h (by simp [he])
    have h2 : k ∉ tl.map Prod.fst := fun hc => h (by simp [hc])
    simp [dictInsert, beq_eq_false_iff_ne.mpr h1, ih h2]

theorem buildRecords_eq (inv : Value) (t : Tree) (root : String)
    (f : String → Record) :
    ∀ (cs : List String) (acc : List (String × Record)),
      (∀ c ∈ cs, c ≠ CVP_ROOT_CONTAINER → recordFor inv t root c = .ok (f c)) →
      cs.Nodup → (∀ c ∈ cs, c ∉ acc.map Prod.fst) →
      buildRecords inv t root cs acc =
        .ok (acc ++ (cs.filter (fun c => !(c == CVP_ROOT_CONTAINER))).map
          (fun c => (c, f c))) := by
  intro cs
  induction cs with
  | nil =>
    intro acc _ _ _
    simp [buildRecords]
  | cons c cs ih =>
    intro acc hrec hnd hacc
    by_cases hct : c = CVP_ROOT_CONTAINER
    · have e : (c == CVP_ROOT_CONTAINER) = true := beq_iff_eq.mpr hct
      have hrest := ih acc (fun x hx hxt => hrec x (List.mem_cons_of_mem _ hx) hxt)
        (List.nodup_cons.mp hnd).2 (fun x hx => hacc x (List.mem_cons_of_mem _ hx))
      simp only [buildRecords, e, if_true, List.filter_cons, Bool.not_true, hrest]
      simp
    · have e : (c == CVP_ROOT_CONTAINER) = false := beq_eq_false_iff_ne.mpr hct
      have hr := hrec c (List.mem_cons_self _ _) hct
      have hfree : c ∉ acc.map Prod.fst := hacc c (List.mem_cons_self _ _)
      have hdict := dictInsert_fresh (f c) hfree
      have hrest := ih (acc ++ [(c, f c)])
        (fun x hx hxt => hrec x (List.mem_cons_of_mem _ hx) hxt)
        (List.nodup_cons.mp hnd).2
        (fun x hx => by
          have h1 : x ∉ acc.map Prod.fst := hacc x (List.mem_cons_of_mem _ hx)
          have h2 : x ≠ c := fun he => (List.nodup_cons.mp hnd).1 (he ▸ hx)
          simp [h1, h2])
      simp only [buildRecords, e, hr, hdict, hrest, List.filter_cons, Bool.not_false]
      simp

theorem map_fst_pair {l : List String} (f : String → Record) :
    (l.map (fun c => (c, f c))).map Prod.fst = l := by
  induction l with
  | nil => rfl
  | cons hd tl ih => simp [ih]

theorem get_containers_eq (gs : Groups) (root : String)
    (hg : goodNames gs.names = true) (hd : gs.names.Nodup)
    (hroot : root ∈ tags gs.tree) :
    get_containers gs.toValue root =
      .ok (((expandF gs.tree root).filter (fun c => !(c == CVP_ROOT_CONTAINER))).map
        (fun c => (c, specRecord gs root c))) := by
  have hser := serialize_toValue gs hg hd
  have gt := (tree_eq_applyEvents gs hg hd).2
  have hcont : treeContains gs.tree root = true := (treeContains_iff_mem _ _).mpr hroot
  have hb := buildRecords_eq gs.toValue gs.tree root (specRecord gs root)
    (expandF gs.tree root) []
    (fun c hc hct => recordFor_ok gs root c hg hd (mem_expandF_tags gt hroot hc) hct)
    (expandF_nodup gt (gs.tree.length - rankAux gs.tree root) root hroot rfl)
    (fun c _ => by simp)
  simp only [get_containers, hser, hcont, if_true]
  simpa using hb

theorem lookupRec_map {l : List String} {c : String} (f : String → Record)
    (h : c ∈ l) : lookupRec (l.map (fun x => (x, f x))) c = some (f c) := by
  induction l with
  | nil => simp at h
  | cons hd tl ih =>
    by_cases hh : hd = c
    · subst hh
      simp [lookupRec]
    · have e : (hd == c) = false := beq_eq_false_iff_ne.mpr hh
      rcases List.mem_cons.mp h with h1 | h1
      · exact absurd h1.symm hh
      · simp [lookupRec, e, ih h1]

end RecordLemmas

section ClaimBatchTwo

/-- C1: the spec's concrete scenario.  The inventory's top-level key `Tenant`
collides with the synthetic root and, under the spec's fail-open overwrite,
the builder proceeds; extracting at root `DC1` yields exactly the two
records of the scenario, with no failure. -/
theorem claimC1 :
    get_containers scenarioInventory "DC1" =
      .ok [("DC1", ⟨some "Tenant", none⟩),
           ("DC1_SPINES", ⟨some "DC1", some ["spine1"]⟩)] := rfl

/-- C5: for every structured inventory with unique non-reserved group names
and present root, the extractor succeeds; its records are listed in exactly
the pre-order traversal (minus the reserved root), the traversal enumerates
exactly the extracted subtree's nodes, every non-root node's parent appears
strictly before it, and siblings appear in insertion order. -/
theorem claimC5 (gs : Groups) (root : String)
    (hg : goodNames gs.names = true) (hd : gs.names.Nodup)
    (hroot : root ∈ tags gs.tree) :
    serialize gs.toValue = .ok (some gs.tree) ∧
    (∃ out, get_containers gs.toValue root = .ok out ∧
      out.map Prod.fst =
        (expandF gs.tree root).filter (fun c => !(c == CVP_ROOT_CONTAINER))) ∧
    (∀ c, c ∈ expandF gs.tree root ↔ isDesc gs.tree root c = true) ∧
    (∀ c, c ∈ expandF gs.tree root → c ≠ root →
      ∃ p, parentOf gs.tree c = some p ∧ Before p c (expandF gs.tree root)) ∧
    (∀ p a b l₁ l₂ l₃, isDesc gs.tree root p = true →
      childrenOf gs.tree p = l₁ ++ a :: (l₂ ++ b :: l₃) →
      Before a b (expandF gs.tree root)) := by
  have gt := (tree_eq_applyEvents gs hg hd).2
  refine ⟨serialize_toValue gs hg hd,
    ⟨_, get_containers_eq gs root hg hd hroot, map_fst_pair _⟩, ?_, ?_, ?_⟩
  · intro c
    constructor
    · exact fun hc =>
        mem_expandF_desc gt (gs.tree.length - rankAux gs.tree root) root hroot rfl c hc
    · exact fun hdc => desc_mem_expandF gt hroot hdc
  · exact fun c hc hne => parent_before gt hroot hc hne
  · exact fun p a b l₁ l₂ l₃ hdp hcs => sibling_before gt hroot hdp hcs

/-- Closed instance of C5 at the two-level inventory `c5Example`, root
`DC`. -/
theorem claimC5_witness :
    serialize c5Example.toValue = .ok (some c5Example.tree) ∧
    (∃ out, get_containers c5Example.toValue "DC" = .ok out ∧
      out.map Prod.fst =
        (expandF c5Example.tree "DC").filter (fun c => !(c == CVP_ROOT_CONTAINER))) ∧
    (∀ c, c ∈ expandF c5Example.tree "DC" ↔ isDesc c5Example.tree "DC" c = true) ∧
    (∀ c, c ∈ expandF c5Example.tree "DC" → c ≠ "DC" →
      ∃ p, parentOf c5Example.tree c = some p ∧
        Before p c (expandF c5Example.tree "DC")) ∧
    (∀ p a b l₁ l₂ l₃, isDesc c5Example.tree "DC" p = true →
      childrenOf c5Example.tree p = l₁ ++ a :: (l₂ ++ b :: l₃) →
      Before a b (expandF c5Example.tree "DC")) :=
  claimC5 c5Example "DC" (by decide) (by decide) (by decide)

/-- C6 (counterexample to the claim as stated): for the three-level
inventory `c6value` with root `DC`, the extracted subtree has two nodes and
the extractor emits two records, not two minus one. -/
theorem claimC6_counterexample :
    serialize c6value = .ok (some c6tree) ∧
    get_containers c6value "DC" =
      .ok [("DC", ⟨some CVP_ROOT_CONTAINER, none⟩),
           ("L", ⟨some "DC", some ["h1"]⟩)] ∧
    ¬([("DC", (⟨some CVP_ROOT_CONTAINER, none⟩ : Record)),
       ("L", ⟨some "DC", some ["h1"]⟩)].length =
        (subtreeTags c6tree "DC").length - 1) :=
  ⟨rfl, rfl, by decide⟩

/-- C6 as amended: one record per node of the extracted subtree other than
the reserved root; the record count equals the subtree node count when the
designated root is not the reserved root, and the count minus one when it
is (only then does the subtree contain the reserved root). -/
theorem claimC6_amended (gs : Groups) (root : String)
    (hg : goodNames gs.names = true) (hd : gs.names.Nodup)
    (hroot : root ∈ tags gs.tree) :
    ∃ out, get_containers gs.toValue root = .ok out ∧
      (out.map Prod.fst).Nodup ∧
      (∀ c, c ∈ out.map Prod.fst ↔
        (isDesc gs.tree root c = true ∧ c ≠ CVP_ROOT_CONTAINER)) ∧
      out.length = (subtreeTags gs.tree root).length -
        (if root = CVP_ROOT_CONTAINER then 1 else 0) := by
  have gt := (tree_eq_applyEvents gs hg hd).2
  have htravnd : (expandF gs.tree root).Nodup :=
    expandF_nodup gt (gs.tree.length - rankAux gs.tree root) root hroot rfl
  refine ⟨_, get_containers_eq gs root hg hd hroot, ?_, ?_, ?_⟩
  · have : (((expandF gs.tree root).filter
        (fun c => !(c == CVP_ROOT_CONTAINER))).map
          (fun c => (c, specRecord gs root c))).map Prod.fst =
        (expandF gs.tree root).filter (fun c => !(c == CVP_ROOT_CONTAINER)) :=
      map_fst_pair _
    rw [this]
    exact List.Nodup.filter _ htravnd
  · intro c
    have hfst : (((expandF gs.tree root).filter
        (fun c => !(c == CVP_ROOT_CONTAINER))).map
          (fun c => (c, specRecord gs root c))).map Prod.fst =
        (expandF gs.tree root).filter (fun c => !(c == CVP_ROOT_CONTAINER)) :=
      map_fst_pair _
    rw [hfst, List.mem_filter]
    constructor
    · rintro ⟨h1, h2⟩
      refine ⟨mem_expandF_desc gt (gs.tree.length - rankAux gs.tree root) root hroot rfl
        c h1, ?_⟩
      intro he
      rw [he] at h2
      simp at h2
    · rintro ⟨h1, h2⟩
      exact ⟨desc_mem_expandF gt hroot h1, by simp [beq_eq_false_iff_ne.mpr h2]⟩
  · rw [List.length_map]
    by_cases hrt : root = CVP_ROOT_CONTAINER
    · rw [if_pos hrt]
      have hmem : CVP_ROOT_CONTAINER ∈ expandF gs.tree root := by
        rw [hrt, expandF_unfold gt (hrt ▸ hroot)]
        exact List.mem_cons_self _ _
      rw [length_filter_ne_of_nodup htravnd hmem]
      rw [length_expandF_eq gt hroot]
    · rw [if_neg hrt]
      have hfil : (expandF gs.tree root).filter (fun c => !(c == CVP_ROOT_CONTAINER)) =
          expandF gs.tree root := by
        apply List.filter_eq_self.mpr
        intro x hx
        have hdx := mem_expandF_desc gt (gs.tree.length - rankAux gs.tree root) root
          hroot rfl x hx
        simp only [Bool.not_eq_true']
        apply beq_eq_false_iff_ne.mpr
        intro he
        rw [he] at hdx
        exact hrt (desc_tenant hdx)
      rw [hfil, length_expandF_eq gt hroot]
      omega

/-- Closed instance of the amended C6 at `c5Example`, root `DC`. -/
theorem claimC6_amended_witness :
    ∃ out, get_containers c5Example.toValue "DC" = .ok out ∧
      (out.map Prod.fst).Nodup ∧
      (∀ c, c ∈ out.map Prod.fst ↔
        (isDesc c5Example.tree "DC" c = true ∧ c ≠ CVP_ROOT_CONTAINER)) ∧
      out.length = (subtreeTags c5Example.tree "DC").length -
        (if "DC" = CVP_ROOT_CONTAINER then 1 else 0) :=
  claimC6_amended c5Example "DC" (by decide) (by decide) (by decide)

/-- C7: every node of the extracted subtree other than the designated root
whose structural parent is the reserved root gets a record that is empty:
no `parent_container` and no `devices`. -/
theorem claimC7 (gs : Groups) (root c : String)
    (hg : goodNames gs.names = true) (hd : gs.names.Nodup)
    (hroot : root ∈ tags gs.tree)
    (hc : isDesc gs.tree root c = true) (hcr : c ≠ root)
    (hp : parentOf gs.tree c = some CVP_ROOT_CONTAINER) :
    ∃ out, get_containers gs.toValue root = .ok out ∧
      lookupRec out c = some ⟨none, none⟩ := by
  have gt := (tree_eq_applyEvents gs hg hd).2
  refine ⟨_, get_containers_eq gs root hg hd hroot, ?_⟩
  have hct : c ≠ CVP_ROOT_CONTAINER := by
    intro he
    rw [he, parentOf_tenant] at hp
    cases hp
  have hctrav : c ∈ expandF gs.tree root := desc_mem_expandF gt hroot hc
  have hcfil : c ∈ (expandF gs.tree root).filter
      (fun c => !(c == CVP_ROOT_CONTAINER)) :=
    List.mem_filter.mpr ⟨hctrav, by simp [beq_eq_false_iff_ne.mpr hct]⟩
  rw [lookupRec_map _ hcfil]
  have e : (c == root) = false := beq_eq_false_iff_ne.mpr hcr
  simp [specRecord, e, hp]

/-- Closed instance of C7: with root `Tenant`, the top-level group `A` is in
the subtree, is not the designated root, has the reserved root as its
structural parent, and its record is empty. -/
theorem claimC7_witness :
    ∃ out, get_containers oneGroupExample.toValue "Tenant" = .ok out ∧
      lookupRec out "A" = some ⟨none, none⟩ :=
  claimC7 oneGroupExample "Tenant" "A" (by decide) (by decide) (by decide)
    (by decide) (by decide) (by decide)

end ClaimBatchTwo

end AvdInv
